import Mathlib

/-!
Shallow embedding of the permission-collection logic of the passbolt browser
extension (`permissionsCollection.js`, `folderModel.js`, `progressController.js`
and the `ResourceExportController`), together with proofs of the spec claims
about it.

`PermissionEntity` itself (its fields and comparison helpers) is not among the
provided sources; those definitions are modelled from the spec and are marked
as such in their doc comments.  Everything about `PermissionsCollection`, the
folder model and the controllers is translated from the JavaScript source.
-/

namespace Passbolt

/-- Modelled from the spec: the ACO (access-controlled object) type is "one of
a small closed set, e.g. Folder or Resource". -/
inductive AcoType
| folder
| resource
deriving DecidableEq, Repr

/-- Modelled from the spec: the ARO (access-requesting object) type is "User
or Group". -/
inductive AroType
| user
| group
deriving DecidableEq, Repr

/-- Modelled from the spec: the permission level is "an ordered enum:
Read < Update < Owner". -/
inductive PermLevel
| read
| update
| owner
deriving DecidableEq, Repr

/-- Numeric value of a permission level, ordered Read < Update < Owner. -/
def PermLevel.val : PermLevel → Nat
| .read => 1
| .update => 7
| .owner => 15

/-- Modelled from the spec: a permission "represents one access grant: subject
type/id, scope type/id, permission level", with an "identifier (optional,
assigned by the remote system)".  Identifiers (UUIDs) are modelled as `Nat`. -/
structure PermissionEntity where
  id : Option Nat
  aco : AcoType
  acoForeignKey : Nat
  aro : AroType
  aroForeignKey : Nat
  type : PermLevel
deriving DecidableEq, Repr

namespace PermissionEntity

/-- Modelled from the spec: two permissions match by ARO when they agree on
(ARO type, ARO identifier). -/
def isAroMatching (p q : PermissionEntity) : Bool :=
  p.aro == q.aro && p.aroForeignKey == q.aroForeignKey

/-- Modelled from the spec: two permissions match by ACO when they agree on
(ACO type, ACO identifier). -/
def isAcoMatching (p q : PermissionEntity) : Bool :=
  p.aco == q.aco && p.acoForeignKey == q.acoForeignKey

/-- Modelled from the spec: match on both ACO and ARO. -/
def isAcoAndAroMatching (p q : PermissionEntity) : Bool :=
  isAcoMatching p q && isAroMatching p q

/-- Modelled from the spec: of two permissions, the one with the higher
permission level; on a tie the first (existing) one is kept. -/
def getHighestPermission (p1 p2 : PermissionEntity) : PermissionEntity :=
  if p2.type.val > p1.type.val then p2 else p1

/-- Modelled from the spec: a permission is an owner grant when its level is
Owner, the highest level. -/
def isOwner (p : PermissionEntity) : Bool :=
  p.type == PermLevel.owner

/-- Modelled from the spec: "copies each parent permission re-targeted at the
new ACO"; the copy represents a brand-new grant on the target ACO, so it
carries no remote-assigned identifier. -/
def copyForAnotherAco (p : PermissionEntity) (aco : AcoType) (acoId : Nat) :
    PermissionEntity :=
  { p with id := none, aco := aco, acoForeignKey := acoId }

end PermissionEntity

/-- The four collection rule names of `permissionsCollection.js`
(`RULE_SAME_ACO`, `RULE_UNIQUE_ID`, `RULE_UNIQUE_ARO`, `RULE_ONE_OWNER`). -/
inductive Rule
| same_aco
| unique_id
| unique_aro
| one_owner
deriving DecidableEq, Repr

/-- An `EntityCollectionError`: the position of the conflicting member and the
violated rule. -/
structure EntityCollectionError where
  position : Nat
  rule : Rule
deriving DecidableEq, Repr

/-- `assertSameAco`: nothing to check on an empty collection; otherwise the new
permission must match the ACO of the first member, else `SAME_ACO` at 0. -/
def assertSameAco (items : List PermissionEntity) (p : PermissionEntity) :
    Option EntityCollectionError :=
  match items with
  | [] => none
  | q :: _ =>
    if PermissionEntity.isAcoMatching p q then none
    else some ⟨0, Rule.same_aco⟩

/-- Index of the first member whose id is `some pid` (the loop of
`assertUniqueId`; a member with no id never conflicts). -/
def idConflictIdx (items : List PermissionEntity) (pid : Nat) : Option Nat :=
  items.findIdx? (fun q => q.id == some pid)

/-- `assertUniqueId`: skipped when the permission carries no id; otherwise
`UNIQUE_ID` at the position of the first member sharing the id. -/
def assertUniqueId (items : List PermissionEntity) (p : PermissionEntity) :
    Option EntityCollectionError :=
  match p.id with
  | none => none
  | some pid =>
    match idConflictIdx items pid with
    | some i => some ⟨i, Rule.unique_id⟩
    | none => none

/-- Index of the first member matching `p` by ARO (the loop of
`assertUniqueAro`). -/
def aroConflictIdx (items : List PermissionEntity) (p : PermissionEntity) :
    Option Nat :=
  items.findIdx? (fun q => PermissionEntity.isAroMatching p q)

/-- `assertUniqueAro`: `UNIQUE_ARO` at the position of the first member with
the same (ARO type, ARO id). -/
def assertUniqueAro (items : List PermissionEntity) (p : PermissionEntity) :
    Option EntityCollectionError :=
  match aroConflictIdx items p with
  | some i => some ⟨i, Rule.unique_aro⟩
  | none => none

/-- `PermissionsCollection.push`: runs `assertSameAco`, `assertUniqueId`,
`assertUniqueAro` in that order and, when all pass, appends the entity at the
end of the member list. -/
def push (items : List PermissionEntity) (p : PermissionEntity) :
    Except EntityCollectionError (List PermissionEntity) :=
  match assertSameAco items p with
  | some e => Except.error e
  | none =>
    match assertUniqueId items p with
    | some e => Except.error e
    | none =>
      match assertUniqueAro items p with
      | some e => Except.error e
      | none => Except.ok (items ++ [p])

/-- State-and-exception semantics of `push`: the member list the collection
holds when the call returns or throws.  Each assertion is a pure read, and the
only mutation (`super.push`) happens after all three assertions, so at every
throw site the member list is still the input list. -/
def pushSt (items : List PermissionEntity) (p : PermissionEntity) :
    List PermissionEntity × Option EntityCollectionError :=
  match assertSameAco items p with
  | some e => (items, some e)
  | none =>
    match assertUniqueId items p with
    | some e => (items, some e)
    | none =>
      match assertUniqueAro items p with
      | some e => (items, some e)
      | none => (items ++ [p], none)

/-- `PermissionsCollection.addOrReplace`: try `push`; on a `UNIQUE_ID` or
`UNIQUE_ARO` error, if the conflicting member matches the new permission on
both ACO and ARO, replace it with the highest-levelled of the two, else
re-raise; every other error is re-raised. -/
def addOrReplace (items : List PermissionEntity) (p : PermissionEntity) :
    Except EntityCollectionError (List PermissionEntity) :=
  match push items p with
  | Except.ok l => Except.ok l
  | Except.error e =>
    if e.rule == Rule.unique_id || e.rule == Rule.unique_aro then
      match items[e.position]? with
      | some existing =>
        if PermissionEntity.isAcoAndAroMatching existing p then
          Except.ok (items.set e.position
            (PermissionEntity.getHighestPermission existing p))
        else Except.error e
      | none => Except.error e
    else Except.error e

/-- `assertAtLeastOneOwner`: `ONE_OWNER` at position 0 unless some member is an
owner grant. -/
def assertAtLeastOneOwner (items : List PermissionEntity) :
    Option EntityCollectionError :=
  if items.any PermissionEntity.isOwner then none
  else some ⟨0, Rule.one_owner⟩

/-- The constructor's loop: push every record in order, aborting at the first
failure. -/
def pushList (items : List PermissionEntity) :
    List PermissionEntity → Except EntityCollectionError (List PermissionEntity)
| [] => Except.ok items
| d :: ds =>
    match push items d with
    | Except.error e => Except.error e
    | Except.ok items2 => pushList items2 ds

/-- The `PermissionsCollection` constructor: push each record in order, then,
unless `ownerValidation` is explicitly `false`, assert at least one owner.
The JavaScript optional parameter is modelled as `Option Bool` (`none` when
omitted, defaulting to `true`). -/
def build (dtos : List PermissionEntity) (ownerValidation : Option Bool) :
    Except EntityCollectionError (List PermissionEntity) :=
  match pushList [] dtos with
  | Except.error e => Except.error e
  | Except.ok items =>
    if ownerValidation.getD true then
      match assertAtLeastOneOwner items with
      | some e => Except.error e
      | none => Except.ok items
    else Except.ok items

/-- The loop of `unionByAcoAndType`: fold `addOrReplace` over the second set,
aborting at the first failure. -/
def addOrReplaceList (items : List PermissionEntity) :
    List PermissionEntity → Except EntityCollectionError (List PermissionEntity)
| [] => Except.ok items
| d :: ds =>
    match addOrReplace items d with
    | Except.error e => Except.error e
    | Except.ok items2 => addOrReplaceList items2 ds

/-- `PermissionsCollection.unionByAcoAndType`: rebuild `set1` with owner
validation off, fold every member of `set2` in via `addOrReplace`, then,
unless `ownerValidation` is explicitly `false`, assert at least one owner. -/
def unionByAcoAndType (set1 set2 : List PermissionEntity)
    (ownerValidation : Option Bool) :
    Except EntityCollectionError (List PermissionEntity) :=
  match build set1 (some false) with
  | Except.error e => Except.error e
  | Except.ok set3 =>
    match addOrReplaceList set3 set2 with
    | Except.error e => Except.error e
    | Except.ok set3b =>
      if ownerValidation.getD true then
        match assertAtLeastOneOwner set3b with
        | some e => Except.error e
        | none => Except.ok set3b
      else Except.ok set3b

/-- `PermissionsCollection.findByAro`: the first member matching the given
permission by ARO, if any. -/
def findByAro (items : List PermissionEntity) (p : PermissionEntity) :
    Option PermissionEntity :=
  (items.filter (fun q => PermissionEntity.isAroMatching q p)).head?

/-! ### Collection invariants (spec, section 3) -/

/-- All members of the collection share the same (ACO type, ACO id). -/
def SameAcoInv (l : List PermissionEntity) : Prop :=
  ∀ p ∈ l, ∀ q ∈ l, PermissionEntity.isAcoMatching p q = true

/-- At most one member per (ARO type, ARO id) pair. -/
def UniqueAroInv (l : List PermissionEntity) : Prop :=
  l.Pairwise (fun p q => PermissionEntity.isAroMatching p q = false)

/-- Member identifiers, when present, are pairwise distinct. -/
def UniqueIdInv (l : List PermissionEntity) : Prop :=
  l.Pairwise (fun p q => p.id = none ∨ p.id ≠ q.id)

/-- The three structural invariants of a `PermissionsCollection`. -/
def Invariant (l : List PermissionEntity) : Prop :=
  SameAcoInv l ∧ UniqueAroInv l ∧ UniqueIdInv l

instance (l : List PermissionEntity) : Decidable (SameAcoInv l) := by
  unfold SameAcoInv; infer_instance

instance (l : List PermissionEntity) : Decidable (UniqueAroInv l) := by
  unfold UniqueAroInv; exact List.instDecidablePairwise l

instance (l : List PermissionEntity) : Decidable (UniqueIdInv l) := by
  unfold UniqueIdInv; exact List.instDecidablePairwise l

instance (l : List PermissionEntity) : Decidable (Invariant l) := by
  unfold Invariant; infer_instance

/-! ### FolderModel (`folderModel.js`)

The remote fetches are abstracted away: the parent folder's permission list,
which `FolderService.get` returns, is taken as an argument. -/

/-- `FolderModel.cloneParentPermissions`: copy each parent permission
re-targeted at the given ACO, folding the clones into a fresh collection
(built with owner validation off) via `addOrReplace`. -/
def cloneParentPermissions (aco : AcoType) (acoId : Nat)
    (parentPermissions : List PermissionEntity) :
    Except EntityCollectionError (List PermissionEntity) :=
  addOrReplaceList []
    (parentPermissions.map (fun pp => pp.copyForAnotherAco aco acoId))

/-- The permission computation of `FolderModel.applyPermissionFromParent` for a
folder that has a parent: validate the folder's own single-permission
collection, clone the parent permissions onto the folder, and, unless
`keepOwnership` is explicitly `false`, re-add the folder's own permission. -/
def applyPermissionFromParentTarget (folderId : Nat)
    (parentPermissions : List PermissionEntity) (own : PermissionEntity)
    (keepOwnership : Option Bool) :
    Except EntityCollectionError (List PermissionEntity) :=
  match build [own] none with
  | Except.error e => Except.error e
  | Except.ok _ =>
    match cloneParentPermissions AcoType.folder folderId parentPermissions with
    | Except.error e => Except.error e
    | Except.ok target =>
      if keepOwnership.getD true then addOrReplace target own
      else Except.ok target

/-! ### Progress controller and resource-export controller

`progressController.js` exports exactly `start`, `complete`, `update` and
`updateGoals`.  `ResourceExportController.exec` calls `progressController.open`
and `progressController.close`; calling a property that the module does not
export throws a `TypeError` in JavaScript. -/

/-- Which functions a progress-controller module exports. -/
structure ProgressControllerModule where
  hasStart : Bool
  hasComplete : Bool
  hasUpdate : Bool
  hasUpdateGoals : Bool
  hasOpenDialog : Bool
  hasCloseDialog : Bool
deriving DecidableEq, Repr

/-- The exports of `progressController.js` as provided: `start`, `complete`,
`update` and `updateGoals` are exported; `open` and `close` are not. -/
def progressControllerModule : ProgressControllerModule :=
  { hasStart := true
    hasComplete := true
    hasUpdate := true
    hasUpdateGoals := true
    hasOpenDialog := false
    hasCloseDialog := false }

/-- Observable events of one `ResourceExportController.exec` run. -/
inductive ExecEvent
| progressDialogOpened
| progressDialogClosed
| tabStorageSet
| emitOpenDialog
| consoleErrorLogged
deriving DecidableEq, Repr

/-- Outcome of one `ResourceExportController.exec` run: the emitted events in
order, and whether the returned promise rejects (an exception escaped). -/
structure ExecResult where
  events : List ExecEvent
  rejected : Bool
deriving DecidableEq, Repr

/-- The try-block of `ResourceExportController.exec`, parameterised by the
progress-controller module and by whether the remote
`LegacyResourceService.findAllByResourcesIds` call fails.  Returns the events
emitted before a possible exception, and whether an exception was thrown. -/
def execTryBlock (m : ProgressControllerModule) (remoteFails : Bool) :
    List ExecEvent × Bool :=
  if !m.hasOpenDialog then ([], true)
  else
    let evs := [ExecEvent.progressDialogOpened]
    if remoteFails then (evs, true)
    else if !m.hasCloseDialog then (evs, true)
    else
      (evs ++ [ExecEvent.progressDialogClosed, ExecEvent.tabStorageSet,
        ExecEvent.emitOpenDialog], false)

/-- `ResourceExportController.exec`: run the try-block; any exception is caught
and logged by the catch-block; the finally-block then calls
`progressController.close`, whose absence throws a `TypeError` that escapes to
the caller. -/
def execModel (m : ProgressControllerModule) (remoteFails : Bool) :
    ExecResult :=
  let tb := execTryBlock m remoteFails
  let evs := if tb.2 then tb.1 ++ [ExecEvent.consoleErrorLogged] else tb.1
  if m.hasCloseDialog then
    { events := evs ++ [ExecEvent.progressDialogClosed], rejected := false }
  else
    { events := evs, rejected := true }

/-! ### Basic lemmas about the entity helpers -/

theorem isAroMatching_iff {p q : PermissionEntity} :
    PermissionEntity.isAroMatching p q = true ↔
      p.aro = q.aro ∧ p.aroForeignKey = q.aroForeignKey := by
  simp [PermissionEntity.isAroMatching]

theorem isAcoMatching_iff {p q : PermissionEntity} :
    PermissionEntity.isAcoMatching p q = true ↔
      p.aco = q.aco ∧ p.acoForeignKey = q.acoForeignKey := by
  simp [PermissionEntity.isAcoMatching]

theorem isAroMatching_refl (p : PermissionEntity) :
    PermissionEntity.isAroMatching p p = true := by
  simp [isAroMatching_iff]

theorem isAcoMatching_refl (p : PermissionEntity) :
    PermissionEntity.isAcoMatching p p = true := by
  simp [isAcoMatching_iff]

theorem isAroMatching_symm {p q : PermissionEntity}
    (h : PermissionEntity.isAroMatching p q = true) :
    PermissionEntity.isAroMatching q p = true := by
  rw [isAroMatching_iff] at h ⊢
  exact ⟨h.1.symm, h.2.symm⟩

theorem isAcoMatching_symm {p q : PermissionEntity}
    (h : PermissionEntity.isAcoMatching p q = true) :
    PermissionEntity.isAcoMatching q p = true := by
  rw [isAcoMatching_iff] at h ⊢
  exact ⟨h.1.symm, h.2.symm⟩

theorem isAroMatching_trans {p q r : PermissionEntity}
    (h1 : PermissionEntity.isAroMatching p q = true)
    (h2 : PermissionEntity.isAroMatching q r = true) :
    PermissionEntity.isAroMatching p r = true := by
  rw [isAroMatching_iff] at h1 h2 ⊢
  exact ⟨h1.1.trans h2.1, h1.2.trans h2.2⟩

theorem isAcoMatching_trans {p q r : PermissionEntity}
    (h1 : PermissionEntity.isAcoMatching p q = true)
    (h2 : PermissionEntity.isAcoMatching q r = true) :
    PermissionEntity.isAcoMatching p r = true := by
  rw [isAcoMatching_iff] at h1 h2 ⊢
  exact ⟨h1.1.trans h2.1, h1.2.trans h2.2⟩

theorem isAcoAndAroMatching_iff {p q : PermissionEntity} :
    PermissionEntity.isAcoAndAroMatching p q = true ↔
      PermissionEntity.isAcoMatching p q = true ∧
      PermissionEntity.isAroMatching p q = true := by
  simp [PermissionEntity.isAcoAndAroMatching]

theorem getHighestPermission_cases (q p : PermissionEntity) :
    PermissionEntity.getHighestPermission q p = q ∨
      PermissionEntity.getHighestPermission q p = p := by
  unfold PermissionEntity.getHighestPermission
  split
  · exact Or.inr rfl
  · exact Or.inl rfl

theorem getHighestPermission_val (q p : PermissionEntity) :
    (PermissionEntity.getHighestPermission q p).type.val =
      max q.type.val p.type.val := by
  unfold PermissionEntity.getHighestPermission
  split <;> omega

theorem getHighestPermission_eq_left {q p : PermissionEntity}
    (h : p.type.val ≤ q.type.val) :
    PermissionEntity.getHighestPermission q p = q := by
  unfold PermissionEntity.getHighestPermission
  split
  · exact absurd h (by omega)
  · rfl

/-! ### Characterizations of the push assertions -/

theorem assertSameAco_none_iff {l : List PermissionEntity}
    {p : PermissionEntity} :
    assertSameAco l p = none ↔
      ∀ q, l.head? = some q → PermissionEntity.isAcoMatching p q = true := by
  cases l with
  | nil => simp [assertSameAco]
  | cons q rest =>
    simp only [assertSameAco, List.head?_cons]
    split
    · simp_all
    · simp_all

theorem assertSameAco_error_iff {l : List PermissionEntity}
    {p : PermissionEntity} {e : EntityCollectionError} :
    assertSameAco l p = some e ↔
      ∃ q rest, l = q :: rest ∧ PermissionEntity.isAcoMatching p q = false ∧
        e = ⟨0, Rule.same_aco⟩ := by
  cases l with
  | nil => simp [assertSameAco]
  | cons q rest =>
    simp only [assertSameAco]
    split
    · rename_i hq
      constructor
      · intro h
        simp at h
      · rintro ⟨q', rest', heq, hm, rfl⟩
        cases heq
        simp_all
    · rename_i hq
      simp only [Bool.not_eq_true] at hq
      constructor
      · intro h
        injection h with h
        exact ⟨q, rest, rfl, hq, h.symm⟩
      · rintro ⟨q', rest', heq, hm, rfl⟩
        cases heq
        rfl

theorem assertUniqueId_none_iff {l : List PermissionEntity}
    {p : PermissionEntity} :
    assertUniqueId l p = none ↔
      ∀ x, p.id = some x → ∀ q ∈ l, q.id ≠ some x := by
  cases hid : p.id with
  | none => simp [assertUniqueId, hid]
  | some x =>
    cases hfind : idConflictIdx l x with
    | none =>
      have heq : assertUniqueId l p = none := by
        simp [assertUniqueId, hid, hfind]
      rw [heq]
      unfold idConflictIdx at hfind
      rw [List.findIdx?_eq_none_iff] at hfind
      simp only [beq_eq_false_iff_ne, ne_eq] at hfind
      constructor
      · intro _ y hy q hq
        have hy' : some x = some y := hid ▸ hy
        injection hy' with hxy
        subst hxy
        exact hfind q hq
      · intro _
        rfl
    | some i =>
      have heq : assertUniqueId l p = some ⟨i, Rule.unique_id⟩ := by
        simp [assertUniqueId, hid, hfind]
      rw [heq]
      unfold idConflictIdx at hfind
      rw [List.findIdx?_eq_some_iff_getElem] at hfind
      obtain ⟨hi, hpi, -⟩ := hfind
      simp only [beq_iff_eq] at hpi
      constructor
      · intro h
        simp at h
      · intro h
        exact absurd hpi (h x (by simp [hid]) (l[i]) (List.getElem_mem hi))

theorem assertUniqueAro_none_iff {l : List PermissionEntity}
    {p : PermissionEntity} :
    assertUniqueAro l p = none ↔
      ∀ q ∈ l, PermissionEntity.isAroMatching p q = false := by
  cases hfind : aroConflictIdx l p with
  | none =>
    have heq : assertUniqueAro l p = none := by
      simp [assertUniqueAro, hfind]
    rw [heq]
    unfold aroConflictIdx at hfind
    rw [List.findIdx?_eq_none_iff] at hfind
    constructor
    · intro _
      exact hfind
    · intro _
      rfl
  | some i =>
    have heq : assertUniqueAro l p = some ⟨i, Rule.unique_aro⟩ := by
      simp [assertUniqueAro, hfind]
    rw [heq]
    unfold aroConflictIdx at hfind
    rw [List.findIdx?_eq_some_iff_getElem] at hfind
    obtain ⟨hi, hpi, -⟩ := hfind
    constructor
    · intro h
      simp at h
    · intro h
      have hfalse := h (l[i]) (List.getElem_mem hi)
      simp [hfalse] at hpi

theorem assertUniqueId_some_iff {l : List PermissionEntity}
    {p : PermissionEntity} {e : EntityCollectionError} :
    assertUniqueId l p = some e ↔
      e.rule = Rule.unique_id ∧ ∃ x, p.id = some x ∧
        (∃ q, l[e.position]? = some q ∧ q.id = some x) ∧
        ∀ k, k < e.position → ∀ q, l[k]? = some q → q.id ≠ some x := by
  cases hid : p.id with
  | none => simp [assertUniqueId, hid]
  | some x =>
    cases hfind : idConflictIdx l x with
    | none =>
      have heq : assertUniqueId l p = none := by
        simp [assertUniqueId, hid, hfind]
      rw [heq]
      unfold idConflictIdx at hfind
      rw [List.findIdx?_eq_none_iff] at hfind
      simp only [beq_eq_false_iff_ne, ne_eq] at hfind
      constructor
      · intro h
        simp at h
      · rintro ⟨-, y, hy, ⟨q, hq, hqid⟩, -⟩
        have hxy : some x = some y := hid ▸ hy
        injection hxy with hxy
        subst hxy
        obtain ⟨hk, rfl⟩ := List.getElem?_eq_some_iff.mp hq
        exact absurd hqid (hfind _ (List.getElem_mem hk))
    | some i =>
      have heq : assertUniqueId l p = some ⟨i, Rule.unique_id⟩ := by
        simp [assertUniqueId, hid, hfind]
      rw [heq]
      unfold idConflictIdx at hfind
      rw [List.findIdx?_eq_some_iff_getElem] at hfind
      obtain ⟨hi, hpi, hmin⟩ := hfind
      simp only [beq_iff_eq] at hpi
      constructor
      · intro h
        injection h with h
        subst h
        refine ⟨rfl, x, hid ▸ rfl, ⟨l[i], List.getElem?_eq_getElem hi, hpi⟩,
          ?_⟩
        intro k hk q hq hqid
        obtain ⟨hklen, rfl⟩ := List.getElem?_eq_some_iff.mp hq
        have hne := hmin k hk
        simp only [beq_iff_eq] at hne
        exact hne hqid
      · obtain ⟨epos, erule⟩ := e
        rintro ⟨hrule, y, hy, ⟨q, hq, hqid⟩, hminy⟩
        simp only at hrule
        subst hrule
        have hxy : some x = some y := hid ▸ hy
        injection hxy with hxy
        subst hxy
        obtain ⟨hk, rfl⟩ := List.getElem?_eq_some_iff.mp hq
        rcases Nat.lt_trichotomy epos i with hlt | heqp | hgt
        · have hne := hmin epos hlt
          simp only [beq_iff_eq] at hne
          exact absurd hqid hne
        · subst heqp
          rfl
        · exact absurd hpi
            (hminy i hgt (l[i]) (List.getElem?_eq_getElem hi))

theorem assertUniqueAro_some_iff {l : List PermissionEntity}
    {p : PermissionEntity} {e : EntityCollectionError} :
    assertUniqueAro l p = some e ↔
      e.rule = Rule.unique_aro ∧
        (∃ q, l[e.position]? = some q ∧
          PermissionEntity.isAroMatching p q = true) ∧
        ∀ k, k < e.position → ∀ q, l[k]? = some q →
          PermissionEntity.isAroMatching p q = false := by
  cases hfind : aroConflictIdx l p with
  | none =>
    have heq : assertUniqueAro l p = none := by
      simp [assertUniqueAro, hfind]
    rw [heq]
    unfold aroConflictIdx at hfind
    rw [List.findIdx?_eq_none_iff] at hfind
    constructor
    · intro h
      simp at h
    · rintro ⟨-, ⟨q, hq, hqm⟩, -⟩
      obtain ⟨hk, rfl⟩ := List.getElem?_eq_some_iff.mp hq
      have := hfind _ (List.getElem_mem hk)
      simp_all
  | some i =>
    have heq : assertUniqueAro l p = some ⟨i, Rule.unique_aro⟩ := by
      simp [assertUniqueAro, hfind]
    rw [heq]
    unfold aroConflictIdx at hfind
    rw [List.findIdx?_eq_some_iff_getElem] at hfind
    obtain ⟨hi, hpi, hmin⟩ := hfind
    constructor
    · intro h
      injection h with h
      subst h
      refine ⟨rfl, ⟨l[i], List.getElem?_eq_getElem hi, hpi⟩, ?_⟩
      intro k hk q hq
      obtain ⟨hklen, rfl⟩ := List.getElem?_eq_some_iff.mp hq
      have hne := hmin k hk
      simp only [Bool.not_eq_true] at hne
      exact hne
    · obtain ⟨epos, erule⟩ := e
      rintro ⟨hrule, ⟨q, hq, hqm⟩, hminy⟩
      simp only at hrule
      subst hrule
      obtain ⟨hk, rfl⟩ := List.getElem?_eq_some_iff.mp hq
      rcases Nat.lt_trichotomy epos i with hlt | heqp | hgt
      · have hne := hmin epos hlt
        simp only [Bool.not_eq_true] at hne
        exact absurd hqm (by simp [hne])
      · subst heqp
        rfl
      · exact absurd hpi
          (by simp [hminy i hgt (l[i]) (List.getElem?_eq_getElem hi)])

/-! ### Characterizations of push -/

theorem push_ok_iff {l : List PermissionEntity} {p : PermissionEntity}
    {l2 : List PermissionEntity} :
    push l p = Except.ok l2 ↔
      assertSameAco l p = none ∧ assertUniqueId l p = none ∧
        assertUniqueAro l p = none ∧ l2 = l ++ [p] := by
  unfold push
  cases h1 : assertSameAco l p with
  | some e => simp
  | none =>
    cases h2 : assertUniqueId l p with
    | some e => simp
    | none =>
      cases h3 : assertUniqueAro l p with
      | some e => simp
      | none => simp [eq_comm]

theorem push_error_iff {l : List PermissionEntity} {p : PermissionEntity}
    {e : EntityCollectionError} :
    push l p = Except.error e ↔
      assertSameAco l p = some e ∨
        (assertSameAco l p = none ∧ assertUniqueId l p = some e) ∨
        (assertSameAco l p = none ∧ assertUniqueId l p = none ∧
          assertUniqueAro l p = some e) := by
  unfold push
  cases h1 : assertSameAco l p with
  | some e1 => simp [eq_comm]
  | none =>
    cases h2 : assertUniqueId l p with
    | some e2 => simp [eq_comm]
    | none =>
      cases h3 : assertUniqueAro l p with
      | some e3 => simp [eq_comm]
      | none => simp

/-! ### Invariant preservation -/

theorem set_getElem?_self {α : Type} {l : List α} {i : Nat} {a : α}
    (h : l[i]? = some a) : l.set i a = l := by
  apply List.ext_getElem?
  intro n
  rcases eq_or_ne i n with rfl | hne
  · obtain ⟨hlen, rfl⟩ := List.getElem?_eq_some_iff.mp h
    rw [List.getElem?_set_self hlen, List.getElem?_eq_getElem hlen]
  · rw [List.getElem?_set_ne hne]

theorem mem_set_elim {α : Type} {l : List α} {i : Nat} {a x : α}
    (hx : x ∈ l.set i a) : x = a ∨ x ∈ l := by
  rw [List.mem_iff_getElem?] at hx
  obtain ⟨n, hn⟩ := hx
  rw [List.getElem?_set] at hn
  split at hn
  · split at hn
    · exact Or.inl (Option.some.injEq _ _ ▸ hn.symm ▸ rfl)
    · simp at hn
  · exact Or.inr (List.mem_iff_getElem?.mpr ⟨n, hn⟩)

theorem sameAco_of_head {l : List PermissionEntity} {p : PermissionEntity}
    (hInv : SameAcoInv l)
    (hHead : ∀ q, l.head? = some q → PermissionEntity.isAcoMatching p q = true) :
    ∀ q ∈ l, PermissionEntity.isAcoMatching p q = true := by
  cases l with
  | nil => simp
  | cons q0 rest =>
    intro q hq
    have h0 : PermissionEntity.isAcoMatching p q0 = true := hHead q0 rfl
    have h1 : PermissionEntity.isAcoMatching q0 q = true :=
      hInv q0 (List.mem_cons_self q0 rest) q hq
    exact isAcoMatching_trans h0 h1

theorem invariant_push {l l2 : List PermissionEntity} {p : PermissionEntity}
    (hInv : Invariant l) (h : push l p = Except.ok l2) : Invariant l2 := by
  obtain ⟨hAco, hId, hAro, rfl⟩ := push_ok_iff.mp h
  obtain ⟨hS, hA, hI⟩ := hInv
  rw [assertSameAco_none_iff] at hAco
  rw [assertUniqueId_none_iff] at hId
  rw [assertUniqueAro_none_iff] at hAro
  have hall : ∀ q ∈ l, PermissionEntity.isAcoMatching p q = true :=
    sameAco_of_head hS hAco
  refine ⟨?_, ?_, ?_⟩
  · intro a ha b hb
    rcases List.mem_append.mp ha with ha1 | ha1
    · rcases List.mem_append.mp hb with hb1 | hb1
      · exact hS a ha1 b hb1
      · have hb2 : b = p := by simpa using hb1
        rw [hb2]
        exact isAcoMatching_symm (hall a ha1)
    · have ha2 : a = p := by simpa using ha1
      rw [ha2]
      rcases List.mem_append.mp hb with hb1 | hb1
      · exact hall b hb1
      · have hb2 : b = p := by simpa using hb1
        rw [hb2]
        exact isAcoMatching_refl p
  · unfold UniqueAroInv
    rw [List.pairwise_append]
    refine ⟨hA, by simp, ?_⟩
    intro a ha b hb
    have hb2 : b = p := by simpa using hb
    rw [hb2]
    cases hmatch : PermissionEntity.isAroMatching a p
    · rfl
    · exact absurd (isAroMatching_symm hmatch) (by simp [hAro a ha])
  · unfold UniqueIdInv
    rw [List.pairwise_append]
    refine ⟨hI, by simp, ?_⟩
    intro a ha b hb
    have hb2 : b = p := by simpa using hb
    rw [hb2]
    cases haid : a.id with
    | none => exact Or.inl rfl
    | some y =>
      right
      intro hcontra
      exact (hId y ((haid ▸ hcontra : (some y : Option Nat) = p.id)).symm a ha) haid

/-- Positional form of `UniqueIdInv`: two members at distinct positions never
share a present identifier. -/
theorem uniqueIdInv_getElem? {l : List PermissionEntity}
    (hI : UniqueIdInv l) {n m : Nat} {a b : PermissionEntity} {x : Nat}
    (hnm : n ≠ m) (ha : l[n]? = some a) (hb : l[m]? = some b)
    (hax : a.id = some x) (hbx : b.id = some x) : False := by
  unfold UniqueIdInv at hI
  rw [List.pairwise_iff_getElem] at hI
  obtain ⟨hn, rfl⟩ := List.getElem?_eq_some_iff.mp ha
  obtain ⟨hm, rfl⟩ := List.getElem?_eq_some_iff.mp hb
  rcases Nat.lt_or_ge n m with hlt | hge
  · rcases hI n m hn hm hlt with h | h
    · rw [hax] at h
      exact Option.noConfusion h
    · exact h (hax.trans hbx.symm)
  · have hlt : m < n := Nat.lt_of_le_of_ne hge (Ne.symm hnm)
    rcases hI m n hm hn hlt with h | h
    · rw [hbx] at h
      exact Option.noConfusion h
    · exact h (hbx.trans hax.symm)

/-- Positional form of `UniqueAroInv`: members at distinct positions never
match by ARO. -/
theorem uniqueAroInv_getElem? {l : List PermissionEntity}
    (hA : UniqueAroInv l) {n m : Nat} {a b : PermissionEntity}
    (hnm : n ≠ m) (ha : l[n]? = some a) (hb : l[m]? = some b)
    (hab : PermissionEntity.isAroMatching a b = true) : False := by
  unfold UniqueAroInv at hA
  rw [List.pairwise_iff_getElem] at hA
  obtain ⟨hn, rfl⟩ := List.getElem?_eq_some_iff.mp ha
  obtain ⟨hm, rfl⟩ := List.getElem?_eq_some_iff.mp hb
  rcases Nat.lt_or_ge n m with hlt | hge
  · rw [hA n m hn hm hlt] at hab
    exact Bool.noConfusion hab
  · have hlt : m < n := Nat.lt_of_le_of_ne hge (Ne.symm hnm)
    have hba := isAroMatching_symm hab
    rw [hA m n hm hn hlt] at hba
    exact Bool.noConfusion hba


/-- Replacing the member at position `i` by the higher-levelled of that member
and a permission matching it on both ACO and ARO preserves the invariants,
provided the incoming permission's id clashes with no member other than the
one replaced. -/
theorem invariant_set {l : List PermissionEntity} {i : Nat}
    {q p : PermissionEntity}
    (hInv : Invariant l) (hq : l[i]? = some q)
    (hmatch : PermissionEntity.isAcoAndAroMatching q p = true)
    (hid : ∀ k q2, k ≠ i → l[k]? = some q2 →
      p.id = none ∨ q2.id ≠ p.id) :
    Invariant (l.set i (PermissionEntity.getHighestPermission q p)) := by
  obtain ⟨hS, hA, hI⟩ := hInv
  obtain ⟨hAco, hAro⟩ := isAcoAndAroMatching_iff.mp hmatch
  obtain ⟨hilen, hqi⟩ := List.getElem?_eq_some_iff.mp hq
  rcases getHighestPermission_cases q p with hm | hm
  · rw [hm, set_getElem?_self hq]
    exact ⟨hS, hA, hI⟩
  · rw [hm]
    have hqmem : q ∈ l := hqi ▸ List.getElem_mem hilen
    refine ⟨?_, ?_, ?_⟩
    · intro a ha b hb
      have hmema := mem_set_elim ha
      have hmemb := mem_set_elim hb
      rcases hmema with ha2 | ha2
      · rcases hmemb with hb2 | hb2
        · rw [ha2, hb2]
          exact isAcoMatching_refl p
        · rw [ha2]
          exact isAcoMatching_trans (isAcoMatching_symm hAco) (hS q hqmem b hb2)
      · rcases hmemb with hb2 | hb2
        · rw [hb2]
          exact isAcoMatching_trans (hS a ha2 q hqmem) hAco
        · exact hS a ha2 b hb2
    · unfold UniqueAroInv
      rw [List.pairwise_iff_getElem]
      intro n m hn hm hnm
      have hn2 : n < l.length := by simpa using hn
      have hm2 : m < l.length := by simpa using hm
      rw [List.getElem_set, List.getElem_set]
      unfold UniqueAroInv at hA
      rw [List.pairwise_iff_getElem] at hA
      have hAnm := hA n m hn2 hm2 hnm
      split
      · split
        · omega
        · rename_i hin himne
          subst hin
          cases hcontra : PermissionEntity.isAroMatching p (l[m]) with
          | false => rfl
          | true =>
            exfalso
            have hqlm : PermissionEntity.isAroMatching q (l[m]) = true :=
              isAroMatching_trans hAro hcontra
            rw [hqi] at hAnm
            rw [hAnm] at hqlm
            exact Bool.noConfusion hqlm
      · split
        · rename_i hinne him
          subst him
          cases hcontra : PermissionEntity.isAroMatching (l[n]) p with
          | false => rfl
          | true =>
            exfalso
            have hlnq : PermissionEntity.isAroMatching (l[n]) q = true :=
              isAroMatching_trans hcontra (isAroMatching_symm hAro)
            rw [hqi] at hAnm
            rw [hAnm] at hlnq
            exact Bool.noConfusion hlnq
        · exact hAnm
    · unfold UniqueIdInv
      rw [List.pairwise_iff_getElem]
      intro n m hn hm hnm
      have hn2 : n < l.length := by simpa using hn
      have hm2 : m < l.length := by simpa using hm
      unfold UniqueIdInv at hI
      rw [List.pairwise_iff_getElem] at hI
      have hInm := hI n m hn2 hm2 hnm
      rw [List.getElem_set, List.getElem_set]
      split
      · split
        · omega
        · rename_i hin himne
          rcases hid m (l[m]) (by omega) (List.getElem?_eq_getElem hm2) with
            hnone | hne
          · exact Or.inl hnone
          · exact Or.inr (Ne.symm hne)
      · split
        · rename_i hinne him
          rcases hid n (l[n]) (by omega) (List.getElem?_eq_getElem hn2) with
            hnone | hne
          · cases hlnid : (l[n]).id with
            | none => exact Or.inl rfl
            | some y =>
              refine Or.inr ?_
              rw [hnone]
              simp
          · exact Or.inr hne
        · exact hInm


theorem addOrReplace_ok_cases {l : List PermissionEntity}
    {p : PermissionEntity} {l2 : List PermissionEntity}
    (h : addOrReplace l p = Except.ok l2) :
    push l p = Except.ok l2 ∨
      ∃ e existing, push l p = Except.error e ∧
        (e.rule = Rule.unique_id ∨ e.rule = Rule.unique_aro) ∧
        l[e.position]? = some existing ∧
        PermissionEntity.isAcoAndAroMatching existing p = true ∧
        l2 = l.set e.position
          (PermissionEntity.getHighestPermission existing p) := by
  unfold addOrReplace at h
  cases hp : push l p with
  | ok l3 =>
    rw [hp] at h
    dsimp only at h
    injection h with h3
    refine Or.inl ?_
    rw [h3]
  | error e =>
    rw [hp] at h
    dsimp only at h
    by_cases hrule : (e.rule == Rule.unique_id || e.rule == Rule.unique_aro) = true
    · rw [if_pos hrule] at h
      cases hex : l[e.position]? with
      | none =>
        rw [hex] at h
        dsimp only at h
        exact Except.noConfusion h
      | some existing =>
        rw [hex] at h
        dsimp only at h
        by_cases hm : PermissionEntity.isAcoAndAroMatching existing p = true
        · rw [if_pos hm] at h
          injection h with h3
          exact Or.inr ⟨e, existing, rfl, by simpa using hrule, hex, hm,
            h3.symm⟩
        · rw [if_neg hm] at h
          exact Except.noConfusion h
    · rw [if_neg hrule] at h
      exact Except.noConfusion h

theorem invariant_addOrReplace {l l2 : List PermissionEntity}
    {p : PermissionEntity} (hInv : Invariant l)
    (h : addOrReplace l p = Except.ok l2) : Invariant l2 := by
  rcases addOrReplace_ok_cases h with hok |
    ⟨e, ex, herr, hrule, hex, hmatch, rfl⟩
  · exact invariant_push hInv hok
  · apply invariant_set hInv hex hmatch
    intro k q2 hk hq2
    rcases push_error_iff.mp herr with hsame | ⟨-, hid⟩ | ⟨-, hidnone, -⟩
    · obtain ⟨q0, rest, -, -, rfl⟩ := assertSameAco_error_iff.mp hsame
      rcases hrule with h1 | h1 <;> simp at h1
    · obtain ⟨-, x, hpx, ⟨qc, hqc, hqcid⟩, -⟩ := assertUniqueId_some_iff.mp hid
      right
      intro hq2id
      rw [hpx] at hq2id
      exact uniqueIdInv_getElem? hInv.2.2 hk hq2 hqc hq2id hqcid
    · rw [assertUniqueId_none_iff] at hidnone
      cases hpx : p.id with
      | none => exact Or.inl rfl
      | some x =>
        right
        intro hq2id
        exact (hidnone x hpx q2 (List.mem_iff_getElem?.mpr ⟨k, hq2⟩)) hq2id

theorem pushList_ok_eq :
    ∀ (ds acc res : List PermissionEntity),
      pushList acc ds = Except.ok res → res = acc ++ ds
  | [], acc, res => by
    intro h
    have h2 : Except.ok (ε := EntityCollectionError) acc = Except.ok res := h
    injection h2 with h2
    simp [h2.symm]
  | d :: ds, acc, res => by
    intro h
    unfold pushList at h
    cases hp : push acc d with
    | error e =>
      rw [hp] at h
      exact Except.noConfusion h
    | ok acc2 =>
      rw [hp] at h
      have hrec := pushList_ok_eq ds acc2 res h
      obtain ⟨-, -, -, rfl⟩ := push_ok_iff.mp hp
      simp [hrec]

theorem invariant_pushList :
    ∀ (ds acc res : List PermissionEntity), Invariant acc →
      pushList acc ds = Except.ok res → Invariant res
  | [], acc, res => by
    intro hInv h
    have h2 : Except.ok (ε := EntityCollectionError) acc = Except.ok res := h
    injection h2 with h2
    exact h2 ▸ hInv
  | d :: ds, acc, res => by
    intro hInv h
    unfold pushList at h
    cases hp : push acc d with
    | error e =>
      rw [hp] at h
      exact Except.noConfusion h
    | ok acc2 =>
      rw [hp] at h
      exact invariant_pushList ds acc2 res (invariant_push hInv hp) h

theorem invariant_addOrReplaceList :
    ∀ (ds acc res : List PermissionEntity), Invariant acc →
      addOrReplaceList acc ds = Except.ok res → Invariant res
  | [], acc, res => by
    intro hInv h
    have h2 : Except.ok (ε := EntityCollectionError) acc = Except.ok res := h
    injection h2 with h2
    exact h2 ▸ hInv
  | d :: ds, acc, res => by
    intro hInv h
    unfold addOrReplaceList at h
    cases hp : addOrReplace acc d with
    | error e =>
      rw [hp] at h
      exact Except.noConfusion h
    | ok acc2 =>
      rw [hp] at h
      exact invariant_addOrReplaceList ds acc2 res
        (invariant_addOrReplace hInv hp) h

theorem invariant_nil : Invariant ([] : List PermissionEntity) := by
  refine ⟨?_, List.Pairwise.nil, List.Pairwise.nil⟩
  intro p hp
  cases hp

theorem build_ok_elim {dtos : List PermissionEntity} {ov : Option Bool}
    {items : List PermissionEntity}
    (h : build dtos ov = Except.ok items) :
    pushList [] dtos = Except.ok items ∧ items = dtos := by
  unfold build at h
  cases hp : pushList [] dtos with
  | error e =>
    rw [hp] at h
    exact Except.noConfusion h
  | ok items0 =>
    rw [hp] at h
    dsimp only at h
    have heq : items0 = items := by
      by_cases hov : (ov.getD true) = true
      · rw [if_pos hov] at h
        cases ha : assertAtLeastOneOwner items0 with
        | some e =>
          rw [ha] at h
          exact Except.noConfusion h
        | none =>
          rw [ha] at h
          dsimp only at h
          injection h
      · rw [if_neg hov] at h
        injection h
    have hdtos := pushList_ok_eq dtos [] items0 hp
    simp only [List.nil_append] at hdtos
    refine ⟨?_, heq ▸ hdtos⟩
    rw [heq]

theorem invariant_build {dtos : List PermissionEntity} {ov : Option Bool}
    {items : List PermissionEntity}
    (h : build dtos ov = Except.ok items) : Invariant items :=
  invariant_pushList dtos [] items invariant_nil (build_ok_elim h).1

theorem union_ok_elim {a b : List PermissionEntity} {ov : Option Bool}
    {res : List PermissionEntity}
    (h : unionByAcoAndType a b ov = Except.ok res) :
    build a (some false) = Except.ok a ∧
      addOrReplaceList a b = Except.ok res ∧
      (ov.getD true = true → assertAtLeastOneOwner res = none) := by
  unfold unionByAcoAndType at h
  cases hb : build a (some false) with
  | error e =>
    rw [hb] at h
    exact Except.noConfusion h
  | ok s3 =>
    rw [hb] at h
    dsimp only at h
    have hs3 : s3 = a := (build_ok_elim hb).2
    subst hs3
    cases hl : addOrReplaceList s3 b with
    | error e =>
      rw [hl] at h
      exact Except.noConfusion h
    | ok s3b =>
      rw [hl] at h
      dsimp only at h
      by_cases hov : (ov.getD true) = true
      · rw [if_pos hov] at h
        cases ha : assertAtLeastOneOwner s3b with
        | some e =>
          rw [ha] at h
          exact Except.noConfusion h
        | none =>
          rw [ha] at h
          dsimp only at h
          injection h with h2
          subst h2
          exact ⟨rfl, rfl, fun _ => ha⟩
      · rw [if_neg hov] at h
        injection h with h2
        subst h2
        exact ⟨rfl, rfl, fun hc => absurd hc hov⟩

theorem invariant_union {a b : List PermissionEntity} {ov : Option Bool}
    {res : List PermissionEntity}
    (h : unionByAcoAndType a b ov = Except.ok res) : Invariant res := by
  obtain ⟨hb, hl, -⟩ := union_ok_elim h
  exact invariant_addOrReplaceList b a res (invariant_build hb) hl


/-! ### Sample permissions for concrete instantiations -/

/-- Owner grant for user 101 on folder 10, id 1. -/
def pU1Owner : PermissionEntity :=
  { id := some 1, aco := AcoType.folder, acoForeignKey := 10,
    aro := AroType.user, aroForeignKey := 101, type := PermLevel.owner }

/-- Read grant for user 102 on folder 10, id 2. -/
def pU2Read : PermissionEntity :=
  { id := some 2, aco := AcoType.folder, acoForeignKey := 10,
    aro := AroType.user, aroForeignKey := 102, type := PermLevel.read }

/-- Id-less update grant for user 102 on folder 10. -/
def pU2Update : PermissionEntity :=
  { id := none, aco := AcoType.folder, acoForeignKey := 10,
    aro := AroType.user, aroForeignKey := 102, type := PermLevel.update }

/-- Update grant for group 201 on folder 10, id 3. -/
def pG1Update : PermissionEntity :=
  { id := some 3, aco := AcoType.folder, acoForeignKey := 10,
    aro := AroType.group, aroForeignKey := 201, type := PermLevel.update }

/-- Owner grant for user 103 on resource 11, id 4: a different ACO. -/
def pR1Owner : PermissionEntity :=
  { id := some 4, aco := AcoType.resource, acoForeignKey := 11,
    aro := AroType.user, aroForeignKey := 103, type := PermLevel.owner }

/-- Grant carrying pU2Read's id 2 but pU1Owner's ARO (user 101): violates both
the unique-id rule (at position 1) and the unique-ARO rule (at position 0). -/
def pBothConflicts : PermissionEntity :=
  { id := some 2, aco := AcoType.folder, acoForeignKey := 10,
    aro := AroType.user, aroForeignKey := 101, type := PermLevel.update }

/-! ### Claim theorems -/

/-- C1: every member list reachable through the public operations
(constructor, push, addOrReplace, unionByAcoAndType) satisfies the three
structural invariants: all members share one (ACO type, ACO id), at most one
member per (ARO type, ARO id), and pairwise distinct identifiers when present.
In particular the replace branch of addOrReplace preserves all three. -/
theorem C1_reachable_invariants :
    (∀ dtos ov items, build dtos ov = Except.ok items → Invariant items) ∧
    (∀ l p l2, Invariant l → push l p = Except.ok l2 → Invariant l2) ∧
    (∀ l p l2, Invariant l → addOrReplace l p = Except.ok l2 →
      Invariant l2) ∧
    (∀ a b ov res, unionByAcoAndType a b ov = Except.ok res →
      Invariant res) :=
  ⟨fun _ _ _ h => invariant_build h,
   fun _ _ _ hInv h => invariant_push hInv h,
   fun _ _ _ hInv h => invariant_addOrReplace hInv h,
   fun _ _ _ _ h => invariant_union h⟩

/-- Concrete instantiation of C1 on the four operations. -/
theorem C1_reachable_invariants_witness :
    Invariant [pU1Owner, pU2Read] ∧
      Invariant [pU1Owner, pU2Read, pG1Update] ∧
      Invariant [pU1Owner, pU2Update] ∧
      Invariant [pU1Owner, pG1Update] :=
  ⟨C1_reachable_invariants.1 [pU1Owner, pU2Read] none [pU1Owner, pU2Read]
      rfl,
   C1_reachable_invariants.2.1 [pU1Owner, pU2Read] pG1Update
      [pU1Owner, pU2Read, pG1Update] (by decide) rfl,
   C1_reachable_invariants.2.2.1 [pU1Owner, pU2Read] pU2Update
      [pU1Owner, pU2Update] (by decide) rfl,
   C1_reachable_invariants.2.2.2 [pU1Owner] [pG1Update] none
      [pU1Owner, pG1Update] rfl⟩

/-- C9: a push call that raises an error leaves the member list exactly as it
was before the call: all three validations run before the append, so a failed
push never partially mutates the collection. -/
theorem C9_failed_push_no_mutation (items : List PermissionEntity)
    (p : PermissionEntity) (e : EntityCollectionError)
    (h : (pushSt items p).2 = some e) : (pushSt items p).1 = items := by
  unfold pushSt at h ⊢
  cases h1 : assertSameAco items p with
  | some e1 => rfl
  | none =>
    rw [h1] at h
    dsimp only at h ⊢
    cases h2 : assertUniqueId items p with
    | some e2 => rfl
    | none =>
      rw [h2] at h
      dsimp only at h ⊢
      cases h3 : assertUniqueAro items p with
      | some e3 => rfl
      | none =>
        rw [h3] at h
        dsimp only at h
        exact Option.noConfusion h

/-- Concrete instantiation of C9: pushing a wrong-ACO record fails and leaves
the member list unchanged. -/
theorem C9_failed_push_no_mutation_witness :
    (pushSt [pU1Owner] pR1Owner).2 = some ⟨0, Rule.same_aco⟩ ∧
      (pushSt [pU1Owner] pR1Owner).1 = [pU1Owner] :=
  ⟨rfl,
   C9_failed_push_no_mutation [pU1Owner] pR1Owner ⟨0, Rule.same_aco⟩ rfl⟩

/-- C4: push validates in this exact order: same-ACO first (skipped on an
empty collection, violation raising SAME_ACO at position 0), then unique-id
(only when the record carries an id, violation raising UNIQUE_ID with the
position of the first conflicting member, even when an ARO conflict also
exists, so a record violating both rules raises UNIQUE_ID and never
UNIQUE_ARO), then unique-ARO (violation raising UNIQUE_ARO with the position
of the conflicting member); on success the entity is appended at the end,
preserving insertion order. -/
theorem C4_push_validation_order (l : List PermissionEntity)
    (p : PermissionEntity) :
    (∀ q rest, l = q :: rest → PermissionEntity.isAcoMatching p q = false →
      push l p = Except.error ⟨0, Rule.same_aco⟩) ∧
    ((∀ q, l.head? = some q → PermissionEntity.isAcoMatching p q = true) →
      ∀ x j qc, p.id = some x → l[j]? = some qc → qc.id = some x →
        (∀ k, k < j → ∀ q2, l[k]? = some q2 → q2.id ≠ some x) →
        push l p = Except.error ⟨j, Rule.unique_id⟩) ∧
    ((∀ q, l.head? = some q → PermissionEntity.isAcoMatching p q = true) →
      (∀ x, p.id = some x → ∀ q ∈ l, q.id ≠ some x) →
      ∀ j qc, l[j]? = some qc →
        PermissionEntity.isAroMatching p qc = true →
        (∀ k, k < j → ∀ q2, l[k]? = some q2 →
          PermissionEntity.isAroMatching p q2 = false) →
        push l p = Except.error ⟨j, Rule.unique_aro⟩) ∧
    ((∀ q, l.head? = some q → PermissionEntity.isAcoMatching p q = true) →
      (∀ x, p.id = some x → ∀ q ∈ l, q.id ≠ some x) →
      (∀ q ∈ l, PermissionEntity.isAroMatching p q = false) →
      push l p = Except.ok (l ++ [p])) := by
  refine ⟨?_, ?_, ?_, ?_⟩
  · intro q rest hl hmiss
    refine push_error_iff.mpr (Or.inl ?_)
    exact assertSameAco_error_iff.mpr ⟨q, rest, hl, hmiss, rfl⟩
  · intro hAco x j qc hpx hqc hqcid hmin
    refine push_error_iff.mpr (Or.inr (Or.inl ⟨?_, ?_⟩))
    · exact assertSameAco_none_iff.mpr hAco
    · exact assertUniqueId_some_iff.mpr
        ⟨rfl, x, hpx, ⟨qc, hqc, hqcid⟩, hmin⟩
  · intro hAco hId j qc hqc hqm hmin
    refine push_error_iff.mpr (Or.inr (Or.inr ⟨?_, ?_, ?_⟩))
    · exact assertSameAco_none_iff.mpr hAco
    · exact assertUniqueId_none_iff.mpr hId
    · exact assertUniqueAro_some_iff.mpr ⟨rfl, ⟨qc, hqc, hqm⟩, hmin⟩
  · intro hAco hId hAro
    exact push_ok_iff.mpr ⟨assertSameAco_none_iff.mpr hAco,
      assertUniqueId_none_iff.mpr hId, assertUniqueAro_none_iff.mpr hAro, rfl⟩

/-- Concrete instantiations of C4's four cases; the second shows that a record
violating both the unique-id rule (position 1) and the unique-ARO rule
(position 0) raises UNIQUE_ID, never UNIQUE_ARO. -/
theorem C4_push_validation_order_witness :
    push [pU1Owner] pR1Owner = Except.error ⟨0, Rule.same_aco⟩ ∧
      push [pU1Owner, pU2Read] pBothConflicts =
        Except.error ⟨1, Rule.unique_id⟩ ∧
      push [pU1Owner, pU2Read] pU2Update =
        Except.error ⟨1, Rule.unique_aro⟩ ∧
      push [pU1Owner] pG1Update = Except.ok [pU1Owner, pG1Update] := by
  refine ⟨?_, ?_, ?_, ?_⟩
  · exact (C4_push_validation_order [pU1Owner] pR1Owner).1 pU1Owner [] rfl
      (by decide)
  · refine (C4_push_validation_order [pU1Owner, pU2Read] pBothConflicts).2.1
      ?_ 2 1 pU2Read (by decide) (by decide) (by decide) ?_
    · intro q hq
      injection hq with hq
      subst hq
      decide
    · intro k hk q2 hq2
      interval_cases k
      injection hq2 with hq2
      subst hq2
      decide
  · refine (C4_push_validation_order [pU1Owner, pU2Read] pU2Update).2.2.1
      ?_ ?_ 1 pU2Read (by decide) (by decide) ?_
    · intro q hq
      injection hq with hq
      subst hq
      decide
    · intro x hx
      exact Option.noConfusion hx
    · intro k hk q2 hq2
      interval_cases k
      injection hq2 with hq2
      subst hq2
      decide
  · refine (C4_push_validation_order [pU1Owner] pG1Update).2.2.2
      ?_ ?_ ?_
    · intro q hq
      injection hq with hq
      subst hq
      decide
    · intro x hx q hq
      injection hx with hx
      subst hx
      have hq2 : q = pU1Owner := by simpa using hq
      subst hq2
      decide
    · intro q hq
      have hq2 : q = pU1Owner := by simpa using hq
      subst hq2
      decide


/-! ### addOrReplace evaluation lemmas and C3 -/

theorem addOrReplace_replace {l : List PermissionEntity}
    {p : PermissionEntity} {e : EntityCollectionError} {ex : PermissionEntity}
    (hp : push l p = Except.error e)
    (hrule : e.rule = Rule.unique_id ∨ e.rule = Rule.unique_aro)
    (hex : l[e.position]? = some ex)
    (hm : PermissionEntity.isAcoAndAroMatching ex p = true) :
    addOrReplace l p = Except.ok
      (l.set e.position (PermissionEntity.getHighestPermission ex p)) := by
  unfold addOrReplace
  rw [hp]
  dsimp only
  have hruleb : (e.rule == Rule.unique_id || e.rule == Rule.unique_aro) =
      true := by
    rcases hrule with h | h <;> simp [h]
  rw [if_pos hruleb, hex]
  dsimp only
  rw [if_pos hm]

theorem addOrReplace_reraise_mismatch {l : List PermissionEntity}
    {p : PermissionEntity} {e : EntityCollectionError} {ex : PermissionEntity}
    (hp : push l p = Except.error e)
    (hex : l[e.position]? = some ex)
    (hm : PermissionEntity.isAcoAndAroMatching ex p = false) :
    addOrReplace l p = Except.error e := by
  unfold addOrReplace
  rw [hp]
  dsimp only
  by_cases hruleb : (e.rule == Rule.unique_id || e.rule == Rule.unique_aro) =
      true
  · rw [if_pos hruleb, hex]
    dsimp only
    rw [if_neg (by simp [hm])]
  · rw [if_neg hruleb]

theorem addOrReplace_reraise_other {l : List PermissionEntity}
    {p : PermissionEntity} {e : EntityCollectionError}
    (hp : push l p = Except.error e)
    (h1 : e.rule ≠ Rule.unique_id) (h2 : e.rule ≠ Rule.unique_aro) :
    addOrReplace l p = Except.error e := by
  unfold addOrReplace
  rw [hp]
  dsimp only
  rw [if_neg (by simp [h1, h2])]

/-- Id-less read grant for user 101 on folder 10: conflicts by ARO with
pU1Owner, at a lower level. -/
def pU1ReadDup : PermissionEntity :=
  { id := none, aco := AcoType.folder, acoForeignKey := 10,
    aro := AroType.user, aroForeignKey := 101, type := PermLevel.read }

/-- C3: when push fails, addOrReplace behaves as follows.  A SAME_ACO error is
always re-raised unchanged.  On a UNIQUE_ID or UNIQUE_ARO error whose
conflicting member matches the new record on both ACO and ARO, that member is
replaced by the higher-levelled of the two (the existing entry is retained
when its level is higher or equal), and exactly one entry for that ARO
remains.  When the conflicting member differs on ACO or ARO, the original
error is re-raised unchanged. -/
theorem C3_addOrReplace_conflicts (l : List PermissionEntity)
    (p : PermissionEntity) (e : EntityCollectionError)
    (hp : push l p = Except.error e) :
    (e.rule = Rule.same_aco → addOrReplace l p = Except.error e) ∧
    (∀ ex, (e.rule = Rule.unique_id ∨ e.rule = Rule.unique_aro) →
      l[e.position]? = some ex →
      PermissionEntity.isAcoAndAroMatching ex p = true →
      addOrReplace l p = Except.ok
          (l.set e.position (PermissionEntity.getHighestPermission ex p)) ∧
        (p.type.val ≤ ex.type.val → addOrReplace l p = Except.ok l) ∧
        (Invariant l → ∀ l2, addOrReplace l p = Except.ok l2 →
          ∃ (j : Nat) (m : PermissionEntity), l2[j]? = some m ∧
            PermissionEntity.isAroMatching m p = true ∧
            ∀ (k : Nat) (m2 : PermissionEntity), l2[k]? = some m2 →
              PermissionEntity.isAroMatching m2 p = true → k = j)) ∧
    (∀ ex, l[e.position]? = some ex →
      PermissionEntity.isAcoAndAroMatching ex p = false →
      addOrReplace l p = Except.error e) := by
  refine ⟨?_, ?_, ?_⟩
  · intro hrule
    refine addOrReplace_reraise_other hp ?_ ?_ <;> rw [hrule] <;> decide
  · intro ex hrule hex hm
    have hrepl := addOrReplace_replace hp hrule hex hm
    refine ⟨hrepl, ?_, ?_⟩
    · intro hle
      rw [hrepl, getHighestPermission_eq_left hle, set_getElem?_self hex]
    · intro hInv l2 h2
      rw [hrepl] at h2
      injection h2 with h2
      subst h2
      obtain ⟨hilen, hexi⟩ := List.getElem?_eq_some_iff.mp hex
      have hexaro : PermissionEntity.isAroMatching ex p = true :=
        (isAcoAndAroMatching_iff.mp hm).2
      have hmaro : PermissionEntity.isAroMatching
          (PermissionEntity.getHighestPermission ex p) p = true := by
        rcases getHighestPermission_cases ex p with hc | hc <;> rw [hc]
        · exact hexaro
        · exact isAroMatching_refl p
      refine ⟨e.position, PermissionEntity.getHighestPermission ex p,
        List.getElem?_set_self (by simpa using hilen), hmaro, ?_⟩
      intro k m2 hk2 hm2
      by_contra hkne
      rw [List.getElem?_set_ne (by omega)] at hk2
      have hm2ex : PermissionEntity.isAroMatching m2 ex = true :=
        isAroMatching_trans hm2 (isAroMatching_symm hexaro)
      exact uniqueAroInv_getElem? hInv.2.1 hkne hk2 hex hm2ex
  · intro ex hex hm
    exact addOrReplace_reraise_mismatch hp hex hm

/-- Concrete instantiations of C3: replacement by the higher level, retention
of the higher existing entry, re-raise on a same-id-different-ARO conflict,
and re-raise of SAME_ACO. -/
theorem C3_addOrReplace_conflicts_witness :
    addOrReplace [pU1Owner, pU2Read] pU2Update =
        Except.ok [pU1Owner, pU2Update] ∧
      addOrReplace [pU1Owner] pU1ReadDup = Except.ok [pU1Owner] ∧
      addOrReplace [pU1Owner, pU2Read] pBothConflicts =
        Except.error ⟨1, Rule.unique_id⟩ ∧
      addOrReplace [pU1Owner] pR1Owner =
        Except.error ⟨0, Rule.same_aco⟩ := by
  refine ⟨?_, ?_, ?_, ?_⟩
  · exact ((C3_addOrReplace_conflicts [pU1Owner, pU2Read] pU2Update
      ⟨1, Rule.unique_aro⟩ rfl).2.1 pU2Read (Or.inr rfl) rfl
      (by decide)).1
  · exact ((C3_addOrReplace_conflicts [pU1Owner] pU1ReadDup
      ⟨0, Rule.unique_aro⟩ rfl).2.1 pU1Owner (Or.inr rfl) rfl
      (by decide)).2.1 (by decide)
  · exact (C3_addOrReplace_conflicts [pU1Owner, pU2Read] pBothConflicts
      ⟨1, Rule.unique_id⟩ rfl).2.2 pU2Read rfl (by decide)
  · exact (C3_addOrReplace_conflicts [pU1Owner] pR1Owner
      ⟨0, Rule.same_aco⟩ rfl).1 rfl


/-! ### Rebuild identity, C5 and C6 -/

theorem mem_of_head? {α : Type} {l : List α} {a : α}
    (h : l.head? = some a) : a ∈ l := by
  cases l with
  | nil => simp at h
  | cons x xs =>
    injection h with h
    rw [← h]
    exact List.mem_cons_self x xs

/-- A list already satisfying the collection invariants passes re-validation
unchanged: pushing its elements one by one succeeds and reproduces it. -/
theorem pushList_of_invariant :
    ∀ (rest acc : List PermissionEntity), Invariant (acc ++ rest) →
      pushList acc rest = Except.ok (acc ++ rest)
  | [], acc => by
    intro h
    simp [pushList]
  | r :: rest, acc => by
    intro hInv
    obtain ⟨hS, hA, hI⟩ := hInv
    have hpush : push acc r = Except.ok (acc ++ [r]) := by
      apply push_ok_iff.mpr
      refine ⟨?_, ?_, ?_, rfl⟩
      · rw [assertSameAco_none_iff]
        intro q hq
        have hqmem : q ∈ acc ++ r :: rest :=
          List.mem_append_left _ (mem_of_head? hq)
        have hrmem : r ∈ acc ++ r :: rest :=
          List.mem_append_right _ (List.mem_cons_self r rest)
        exact hS r hrmem q hqmem
      · rw [assertUniqueId_none_iff]
        intro x hx q hq hqx
        have hqr := (List.pairwise_append.mp hI).2.2 q hq r
          (List.mem_cons_self r rest)
        rcases hqr with hnone | hne
        · rw [hnone] at hqx
          exact Option.noConfusion hqx
        · exact hne (hqx.trans hx.symm)
      · rw [assertUniqueAro_none_iff]
        intro q hq
        have hqr := (List.pairwise_append.mp hA).2.2 q hq r
          (List.mem_cons_self r rest)
        cases hc : PermissionEntity.isAroMatching r q
        · rfl
        · exact absurd (isAroMatching_symm hc) (by simp [hqr])
    unfold pushList
    rw [hpush]
    have hassoc : (acc ++ [r]) ++ rest = acc ++ r :: rest := by simp
    have hInv2 : Invariant ((acc ++ [r]) ++ rest) := by
      rw [hassoc]
      exact ⟨hS, hA, hI⟩
    have hrec := pushList_of_invariant rest (acc ++ [r]) hInv2
    rw [hassoc] at hrec
    exact hrec

/-- Read grant for user 104 on resource 11, id 5: non-owner, other ACO. -/
def pR2Read : PermissionEntity :=
  { id := some 5, aco := AcoType.resource, acoForeignKey := 11,
    aro := AroType.user, aroForeignKey := 104, type := PermLevel.read }

/-- Counterexample to C5 as stated: the records are individually valid, the
list is non-empty with an Owner entry and pairwise-distinct (ARO type, ARO id)
pairs, yet construction fails (with SAME_ACO) because the records do not share
one ACO. -/
theorem C5_counterexample :
    UniqueAroInv [pU1Owner, pR1Owner] ∧
      (∃ d ∈ [pU1Owner, pR1Owner], d.isOwner = true) ∧
      build [pU1Owner, pR1Owner] none =
        Except.error ⟨0, Rule.same_aco⟩ :=
  ⟨by decide, by decide, rfl⟩

/-- A list satisfying all three invariants and containing an owner constructs
successfully into exactly itself. -/
theorem build_of_invariant_owner (dtos : List PermissionEntity)
    (hInv : Invariant dtos)
    (hOwner : ∃ d ∈ dtos, d.isOwner = true) (ov : Option Bool) :
    build dtos ov = Except.ok dtos := by
  unfold build
  have hrebuild : pushList [] dtos = Except.ok dtos := by
    have := pushList_of_invariant dtos [] (by simpa using hInv)
    simpa using this
  rw [hrebuild]
  dsimp only
  have howner : assertAtLeastOneOwner dtos = none := by
    unfold assertAtLeastOneOwner
    rw [if_pos]
    rw [List.any_eq_true]
    obtain ⟨d, hd, hdo⟩ := hOwner
    exact ⟨d, hd, hdo⟩
  by_cases hov : (ov.getD true) = true
  · rw [if_pos hov, howner]
  · rw [if_neg hov]

/-- C5 amended: for every non-empty list of valid permission records that
additionally share a single (ACO type, ACO id) and have pairwise-distinct
identifiers when present — i.e. satisfy all three collection invariants —
and contain at least one Owner-level entry, construction succeeds and the
members are exactly the input records in input order. -/
theorem C5_amended_constructor_order (dtos : List PermissionEntity)
    (hInv : Invariant dtos)
    (hOwner : ∃ d ∈ dtos, d.isOwner = true) (ov : Option Bool) :
    build dtos ov = Except.ok dtos :=
  build_of_invariant_owner dtos hInv hOwner ov

/-- Concrete instantiation of the amended C5. -/
theorem C5_amended_constructor_order_witness :
    build [pU1Owner, pU2Read, pG1Update] none =
      Except.ok [pU1Owner, pU2Read, pG1Update] :=
  C5_amended_constructor_order [pU1Owner, pU2Read, pG1Update]
    (by decide) (by decide) none

/-- Counterexample to C6 as stated: a list with zero Owner-level entries whose
construction fails with SAME_ACO (at the conflicting record), not with
ONE_OWNER. -/
theorem C6_counterexample :
    (∀ d ∈ [pU2Read, pR2Read], d.isOwner = false) ∧
      build [pU2Read, pR2Read] none = Except.error ⟨0, Rule.same_aco⟩ ∧
      build [pU2Read, pR2Read] none ≠
        Except.error ⟨0, Rule.one_owner⟩ := by
  refine ⟨by decide, rfl, ?_⟩
  intro hcontra
  have h2 : Except.error (α := List PermissionEntity)
      (⟨0, Rule.same_aco⟩ : EntityCollectionError) =
      Except.error ⟨0, Rule.one_owner⟩ := by
    rw [← hcontra]
    rfl
  injection h2 with h3
  exact Rule.noConfusion (congrArg EntityCollectionError.rule h3)

/-- C6 amended: for every list of permission records with zero Owner-level
entries whose records pass the per-record push rules (same ACO, unique id,
unique ARO), constructing with owner validation enabled or omitted fails with
the ONE_OWNER rule violation at position 0. -/
theorem C6_amended_no_owner (dtos items : List PermissionEntity)
    (hpush : pushList [] dtos = Except.ok items)
    (hNoOwner : ∀ d ∈ dtos, d.isOwner = false) (ov : Option Bool)
    (hov : ov = none ∨ ov = some true) :
    build dtos ov = Except.error ⟨0, Rule.one_owner⟩ := by
  unfold build
  rw [hpush]
  dsimp only
  have hitems : items = dtos := by
    simpa using pushList_ok_eq dtos [] items hpush
  have hnotany : ¬(items.any PermissionEntity.isOwner = true) := by
    intro hc
    rw [List.any_eq_true] at hc
    obtain ⟨d, hd, hdo⟩ := hc
    rw [hitems] at hd
    rw [hNoOwner d hd] at hdo
    exact Bool.noConfusion hdo
  have hone : assertAtLeastOneOwner items =
      some ⟨0, Rule.one_owner⟩ := by
    unfold assertAtLeastOneOwner
    rw [if_neg hnotany]
  have hovt : ov.getD true = true := by
    rcases hov with rfl | rfl <;> rfl
  rw [if_pos hovt, hone]

/-- Concrete instantiation of the amended C6. -/
theorem C6_amended_no_owner_witness :
    build [pU2Read, pG1Update] none =
      Except.error ⟨0, Rule.one_owner⟩ :=
  C6_amended_no_owner [pU2Read, pG1Update] [pU2Read, pG1Update] rfl
    (by decide) none (Or.inl rfl)


/-! ### Shape of a compatible addOrReplace -/

/-- The incoming permission matches the ACO of every member. -/
def AcoCompat (l : List PermissionEntity) (p : PermissionEntity) : Prop :=
  ∀ q ∈ l, PermissionEntity.isAcoMatching p q = true

/-- Whenever the incoming permission shares a present id with a member, the
two also match by ARO (so an id conflict is always a recoverable one). -/
def IdCompat (l : List PermissionEntity) (p : PermissionEntity) : Prop :=
  ∀ q ∈ l, ∀ x, q.id = some x → p.id = some x →
    PermissionEntity.isAroMatching p q = true

/-- On an invariant-satisfying collection, an ACO- and id-compatible
addOrReplace always succeeds: it appends when no member matches the incoming
ARO, and otherwise replaces the unique ARO-matching member with the
higher-levelled of the two. -/
theorem addOrReplace_shape {l : List PermissionEntity} {p : PermissionEntity}
    (hInv : Invariant l) (hAco : AcoCompat l p) (hId : IdCompat l p) :
    (aroConflictIdx l p = none ∧
      addOrReplace l p = Except.ok (l ++ [p])) ∨
    (∃ (j : Nat) (q : PermissionEntity), aroConflictIdx l p = some j ∧
      l[j]? = some q ∧ PermissionEntity.isAroMatching p q = true ∧
      addOrReplace l p = Except.ok
        (l.set j (PermissionEntity.getHighestPermission q p))) := by
  have hSame : assertSameAco l p = none :=
    assertSameAco_none_iff.mpr (fun q hq => hAco q (mem_of_head? hq))
  cases hfind : aroConflictIdx l p with
  | none =>
    have hfind2 := hfind
    unfold aroConflictIdx at hfind2
    rw [List.findIdx?_eq_none_iff] at hfind2
    have hAroNone : assertUniqueAro l p = none := by
      simp [assertUniqueAro, hfind]
    have hUid : assertUniqueId l p = none := by
      rw [assertUniqueId_none_iff]
      intro x hx q hq hqx
      have htrue := hId q hq x hqx hx
      have hfalse := hfind2 q hq
      rw [htrue] at hfalse
      exact Bool.noConfusion hfalse
    have hpush : push l p = Except.ok (l ++ [p]) :=
      push_ok_iff.mpr ⟨hSame, hUid, hAroNone, rfl⟩
    refine Or.inl ⟨rfl, ?_⟩
    unfold addOrReplace
    rw [hpush]
  | some j =>
    have hfind2 := hfind
    unfold aroConflictIdx at hfind2
    rw [List.findIdx?_eq_some_iff_getElem] at hfind2
    obtain ⟨hj, hpj, hmin⟩ := hfind2
    have hqe : l[j]? = some (l[j]) := List.getElem?_eq_getElem hj
    have hjmem : l[j] ∈ l := List.getElem_mem hj
    have hUniqueMatch : ∀ (k : Nat) (q2 : PermissionEntity),
        l[k]? = some q2 → PermissionEntity.isAroMatching p q2 = true →
        k = j := by
      intro k q2 hk2 hq2
      by_contra hkne
      have hq2q : PermissionEntity.isAroMatching q2 (l[j]) = true :=
        isAroMatching_trans (isAroMatching_symm hq2) hpj
      exact uniqueAroInv_getElem? hInv.2.1 hkne hk2 hqe hq2q
    cases huid : assertUniqueId l p with
    | some e =>
      obtain ⟨herule, x, hpx, ⟨qc, hqc, hqcx⟩, -⟩ :=
        assertUniqueId_some_iff.mp huid
      have hqcmem : qc ∈ l := List.mem_iff_getElem?.mpr ⟨e.position, hqc⟩
      have hqcaro : PermissionEntity.isAroMatching p qc = true :=
        hId qc hqcmem x hqcx hpx
      have hpos : e.position = j := hUniqueMatch e.position qc hqc hqcaro
      have hacoaro : PermissionEntity.isAcoAndAroMatching qc p = true := by
        rw [isAcoAndAroMatching_iff]
        exact ⟨isAcoMatching_symm (hAco qc hqcmem),
          isAroMatching_symm hqcaro⟩
      have hpusherr : push l p = Except.error e :=
        push_error_iff.mpr (Or.inr (Or.inl ⟨hSame, huid⟩))
      have hrepl := addOrReplace_replace hpusherr (Or.inl herule) hqc hacoaro
      rw [hpos] at hqc hrepl
      have hqcq : qc = l[j] := by
        have h12 := hqc.symm.trans hqe
        injection h12
      rw [hqcq] at hrepl
      exact Or.inr ⟨j, l[j], rfl, hqe, hpj, hrepl⟩
    | none =>
      have haro : assertUniqueAro l p = some ⟨j, Rule.unique_aro⟩ := by
        simp [assertUniqueAro, hfind]
      have hpusherr : push l p =
          Except.error ⟨j, Rule.unique_aro⟩ :=
        push_error_iff.mpr (Or.inr (Or.inr ⟨hSame, huid, haro⟩))
      have hacoaro : PermissionEntity.isAcoAndAroMatching (l[j]) p =
          true := by
        rw [isAcoAndAroMatching_iff]
        exact ⟨isAcoMatching_symm (hAco (l[j]) hjmem),
          isAroMatching_symm hpj⟩
      have hrepl := addOrReplace_replace hpusherr (Or.inr rfl) hqe hacoaro
      exact Or.inr ⟨j, l[j], rfl, hqe, hpj, hrepl⟩

/-- Every member of an addOrReplace result is an old member or the incoming
permission. -/
theorem addOrReplace_mem {l : List PermissionEntity} {p : PermissionEntity}
    {l2 : List PermissionEntity} (h : addOrReplace l p = Except.ok l2) :
    ∀ m ∈ l2, m ∈ l ∨ m = p := by
  rcases addOrReplace_ok_cases h with hok | ⟨e, ex, herr, hrule, hex, hm, rfl⟩
  · obtain ⟨-, -, -, rfl⟩ := push_ok_iff.mp hok
    intro m hm2
    rcases List.mem_append.mp hm2 with h1 | h1
    · exact Or.inl h1
    · exact Or.inr (by simpa using h1)
  · intro m hm2
    rcases mem_set_elim hm2 with h1 | h1
    · rcases getHighestPermission_cases ex p with hc | hc
      · rw [hc] at h1
        refine Or.inl ?_
        rw [h1]
        exact List.mem_iff_getElem?.mpr ⟨e.position, hex⟩
      · rw [hc] at h1
        exact Or.inr h1
    · exact Or.inl h1


/-! ### Clone folding and C7 -/

theorem invariant_singleton (p : PermissionEntity) : Invariant [p] := by
  refine ⟨?_, ?_, ?_⟩
  · intro a ha b hb
    have ha2 : a = p := by simpa using ha
    have hb2 : b = p := by simpa using hb
    rw [ha2, hb2]
    exact isAcoMatching_refl p
  · exact List.pairwise_singleton _ _
  · exact List.pairwise_singleton _ _

/-- Folding id-less permissions that all target one ACO into a collection of
the same shape always succeeds and keeps that shape. -/
theorem addOrReplaceList_clones :
    ∀ (ds l : List PermissionEntity) (aco : AcoType) (acoId : Nat),
      Invariant l →
      (∀ q ∈ l, q.aco = aco ∧ q.acoForeignKey = acoId ∧ q.id = none) →
      (∀ d ∈ ds, d.aco = aco ∧ d.acoForeignKey = acoId ∧ d.id = none) →
      ∃ l2, addOrReplaceList l ds = Except.ok l2 ∧ Invariant l2 ∧
        ∀ q ∈ l2, q.aco = aco ∧ q.acoForeignKey = acoId ∧ q.id = none
  | [], l, aco, acoId => by
    intro hInv hl _
    exact ⟨l, rfl, hInv, hl⟩
  | d :: ds, l, aco, acoId => by
    intro hInv hl hds
    have hd := hds d (List.mem_cons_self d ds)
    have hAco : AcoCompat l d := by
      intro q hq
      rw [isAcoMatching_iff]
      obtain ⟨hq1, hq2, -⟩ := hl q hq
      exact ⟨hd.1.trans hq1.symm, hd.2.1.trans hq2.symm⟩
    have hIdc : IdCompat l d := by
      intro q hq x hqx hdx
      obtain ⟨-, -, hqid⟩ := hl q hq
      rw [hqid] at hqx
      exact Option.noConfusion hqx
    have hok : ∃ l1, addOrReplace l d = Except.ok l1 := by
      rcases addOrReplace_shape hInv hAco hIdc with ⟨-, h⟩ |
        ⟨j, q, -, -, -, h⟩
      · exact ⟨_, h⟩
      · exact ⟨_, h⟩
    obtain ⟨l1, hok⟩ := hok
    have hInv1 := invariant_addOrReplace hInv hok
    have hl1 : ∀ q ∈ l1,
        q.aco = aco ∧ q.acoForeignKey = acoId ∧ q.id = none := by
      intro q hq
      rcases addOrReplace_mem hok q hq with h1 | h1
      · exact hl q h1
      · rw [h1]
        exact hd
    obtain ⟨l2, h2, hInv2, hl2⟩ := addOrReplaceList_clones ds l1 aco acoId
      hInv1 hl1 (fun d2 hd2 => hds d2 (List.mem_cons_of_mem d hd2))
    refine ⟨l2, ?_, hInv2, hl2⟩
    unfold addOrReplaceList
    rw [hok]
    exact h2

/-- cloneParentPermissions always succeeds and yields an invariant-satisfying
set of id-less permissions all targeting the requested ACO. -/
theorem cloneParentPermissions_ok (aco : AcoType) (acoId : Nat)
    (parentPerms : List PermissionEntity) :
    ∃ l2, cloneParentPermissions aco acoId parentPerms = Except.ok l2 ∧
      Invariant l2 ∧
      ∀ q ∈ l2, q.aco = aco ∧ q.acoForeignKey = acoId ∧ q.id = none := by
  unfold cloneParentPermissions
  refine addOrReplaceList_clones _ [] aco acoId invariant_nil (by simp) ?_
  intro d hd
  rw [List.mem_map] at hd
  obtain ⟨pp, -, rfl⟩ := hd
  exact ⟨rfl, rfl, rfl⟩

/-- C7: for a folder with a parent, with keepOwnership true or omitted
(defaulting to true), the computed target permission set contains an entry
for the ARO of the folder's own permission whose level is at least the own
permission's level, so the acting user retains Owner. -/
theorem C7_applyPermissionFromParent_keeps_owner
    (folderId : Nat) (parentPerms : List PermissionEntity)
    (own : PermissionEntity) (keepOwnership : Option Bool)
    (hko : keepOwnership = none ∨ keepOwnership = some true)
    (hOwnAco : own.aco = AcoType.folder)
    (hOwnFk : own.acoForeignKey = folderId)
    (hOwnLevel : own.isOwner = true) :
    ∃ target, applyPermissionFromParentTarget folderId parentPerms own
        keepOwnership = Except.ok target ∧
      ∃ q ∈ target, PermissionEntity.isAroMatching q own = true ∧
        own.type.val ≤ q.type.val := by
  obtain ⟨t0, hclone, hInv0, hshape0⟩ :=
    cloneParentPermissions_ok AcoType.folder folderId parentPerms
  have hbuild : build [own] none = Except.ok [own] :=
    build_of_invariant_owner [own] (invariant_singleton own)
      ⟨own, List.mem_singleton_self own, hOwnLevel⟩ none
  have hAco : AcoCompat t0 own := by
    intro q hq
    rw [isAcoMatching_iff]
    obtain ⟨hq1, hq2, -⟩ := hshape0 q hq
    exact ⟨hOwnAco.trans hq1.symm, hOwnFk.trans hq2.symm⟩
  have hIdc : IdCompat t0 own := by
    intro q hq x hqx hox
    obtain ⟨-, -, hqid⟩ := hshape0 q hq
    rw [hqid] at hqx
    exact Option.noConfusion hqx
  have hkot : keepOwnership.getD true = true := by
    rcases hko with rfl | rfl <;> rfl
  unfold applyPermissionFromParentTarget
  rw [hbuild]
  dsimp only
  rw [hclone]
  dsimp only
  rw [if_pos hkot]
  rcases addOrReplace_shape hInv0 hAco hIdc with ⟨-, hrepl⟩ |
    ⟨j, q, -, hq, hqaro, hrepl⟩
  · refine ⟨t0 ++ [own], hrepl, own, ?_, isAroMatching_refl own,
      Nat.le_refl _⟩
    exact List.mem_append_right _ (List.mem_singleton_self own)
  · obtain ⟨hjlen, -⟩ := List.getElem?_eq_some_iff.mp hq
    refine ⟨t0.set j (PermissionEntity.getHighestPermission q own), hrepl,
      PermissionEntity.getHighestPermission q own, ?_, ?_, ?_⟩
    · exact List.mem_iff_getElem?.mpr ⟨j, List.getElem?_set_self
        (by simpa using hjlen)⟩
    · rcases getHighestPermission_cases q own with hc | hc <;> rw [hc]
      · exact isAroMatching_symm hqaro
      · exact isAroMatching_refl own
    · rw [getHighestPermission_val]
      omega

/-- Concrete instantiation of C7, matching the spec's example: parent
permissions [{User u1, Owner}], own permission {User u2, Owner} on folder 20,
keepOwnership omitted; the target set is [{User u1, Owner}, {User u2, Owner}]
re-targeted at the folder, and the acting user u2 retains Owner. -/
theorem C7_applyPermissionFromParent_keeps_owner_witness :
    ∃ target, applyPermissionFromParentTarget 20
        [{ id := some 7, aco := AcoType.folder, acoForeignKey := 19,
           aro := AroType.user, aroForeignKey := 101,
           type := PermLevel.owner }]
        { id := some 8, aco := AcoType.folder, acoForeignKey := 20,
          aro := AroType.user, aroForeignKey := 102,
          type := PermLevel.owner } none = Except.ok target ∧
      ∃ q ∈ target, PermissionEntity.isAroMatching q
          { id := some 8, aco := AcoType.folder, acoForeignKey := 20,
            aro := AroType.user, aroForeignKey := 102,
            type := PermLevel.owner } = true ∧
        PermLevel.owner.val ≤ q.type.val :=
  C7_applyPermissionFromParent_keeps_owner 20 _ _ none (Or.inl rfl)
    rfl rfl rfl


/-! ### Union arithmetic: levels and the fold over set B -/

/-- The highest level among the members of a list matching `a` by ARO
(0 when none matches). -/
def maxLevelFor : List PermissionEntity → PermissionEntity → Nat
| [], _ => 0
| b :: bs, a =>
    if PermissionEntity.isAroMatching b a then
      max b.type.val (maxLevelFor bs a)
    else maxLevelFor bs a

theorem maxLevelFor_le {bs : List PermissionEntity} {a b : PermissionEntity}
    (hb : b ∈ bs) (hm : PermissionEntity.isAroMatching b a = true) :
    b.type.val ≤ maxLevelFor bs a := by
  induction bs with
  | nil => cases hb
  | cons b0 bs ih =>
    rcases List.mem_cons.mp hb with heq | hb2
    · unfold maxLevelFor
      rw [heq] at hm ⊢
      rw [if_pos hm]
      omega
    · unfold maxLevelFor
      split
      · have := ih hb2
        omega
      · exact ih hb2

theorem maxLevelFor_cons (b : PermissionEntity) (bs : List PermissionEntity)
    (a : PermissionEntity) :
    maxLevelFor (b :: bs) a =
      if PermissionEntity.isAroMatching b a then
        max b.type.val (maxLevelFor bs a)
      else maxLevelFor bs a := rfl

/-- A list satisfying the invariants rebuilds into itself with owner
validation disabled. -/
theorem build_of_invariant_off (dtos : List PermissionEntity)
    (hInv : Invariant dtos) :
    build dtos (some false) = Except.ok dtos := by
  unfold build
  have hrebuild : pushList [] dtos = Except.ok dtos := by
    have := pushList_of_invariant dtos [] (by simpa using hInv)
    simpa using this
  rw [hrebuild]
  dsimp only
  rw [if_neg (by simp)]

/-- The fold of `unionByAcoAndType`: starting from a state positionally
ARO-matched to `A`, folding ARO-subset, ACO- and id-compatible permissions of
`B` succeeds, keeps `|A|` entries positionally matched to `A`, and raises each
position's level by the levels of the matching processed members. -/
theorem union_fold (A B : List PermissionEntity)
    (hInvA : Invariant A)
    (hBaco : ∀ b ∈ B, ∀ a ∈ A, PermissionEntity.isAcoMatching b a = true)
    (hBid : ∀ b ∈ B, ∀ q, (q ∈ A ∨ q ∈ B) → ∀ x, q.id = some x →
      b.id = some x → PermissionEntity.isAroMatching b q = true)
    (hBsub : ∀ b ∈ B, ∃ a ∈ A, PermissionEntity.isAroMatching b a = true) :
    ∀ (bs state : List PermissionEntity),
      (∀ b ∈ bs, b ∈ B) →
      Invariant state →
      state.length = A.length →
      (∀ (j : Nat) (a m : PermissionEntity), A[j]? = some a →
        state[j]? = some m → PermissionEntity.isAroMatching m a = true) →
      (∀ m ∈ state, m ∈ A ∨ m ∈ B) →
      ∃ res, addOrReplaceList state bs = Except.ok res ∧
        Invariant res ∧ res.length = A.length ∧
        (∀ (j : Nat) (a m0 m : PermissionEntity), A[j]? = some a →
          state[j]? = some m0 → res[j]? = some m →
          PermissionEntity.isAroMatching m a = true ∧
          m.type.val = max m0.type.val (maxLevelFor bs a)) ∧
        (∀ m ∈ res, m ∈ A ∨ m ∈ B) := by
  intro bs
  induction bs with
  | nil =>
    intro state _ hInv hlen hrel hmem
    refine ⟨state, rfl, hInv, hlen, ?_, hmem⟩
    intro j a m0 m hj hm0 hm
    have hmm : m0 = m := by
      have h12 := hm0.symm.trans hm
      injection h12
    rw [← hmm]
    refine ⟨hrel j a m0 hj hm0, ?_⟩
    unfold maxLevelFor
    omega
  | cons b bs ih =>
    intro state hbs hInv hlen hrel hmem
    have hbB : b ∈ B := hbs b (List.mem_cons_self b bs)
    obtain ⟨a0, ha0A, hba0⟩ := hBsub b hbB
    obtain ⟨j0, hj0⟩ := List.mem_iff_getElem?.mp ha0A
    have hj0len : j0 < A.length := (List.getElem?_eq_some_iff.mp hj0).1
    have hst0 : state[j0]? = some (state[j0]) :=
      List.getElem?_eq_getElem (by omega)
    have hm0a0 : PermissionEntity.isAroMatching (state[j0]) a0 = true :=
      hrel j0 a0 (state[j0]) hj0 hst0
    have hbm0 : PermissionEntity.isAroMatching b (state[j0]) = true :=
      isAroMatching_trans hba0 (isAroMatching_symm hm0a0)
    have hAcoC : AcoCompat state b := by
      intro q hq
      rcases hmem q hq with hqA | hqB
      · exact hBaco b hbB q hqA
      · exact isAcoMatching_trans (hBaco b hbB a0 ha0A)
          (isAcoMatching_symm (hBaco q hqB a0 ha0A))
    have hIdC : IdCompat state b := by
      intro q hq x hqx hbx
      exact hBid b hbB q (hmem q hq) x hqx hbx
    rcases addOrReplace_shape hInv hAcoC hIdC with ⟨hnone, -⟩ |
      ⟨j1, q1, -, hq1, hbq1, hrepl⟩
    · exfalso
      unfold aroConflictIdx at hnone
      rw [List.findIdx?_eq_none_iff] at hnone
      have := hnone (state[j0]) (List.getElem_mem (by omega))
      rw [hbm0] at this
      exact Bool.noConfusion this
    · have hj1j0 : j1 = j0 := by
        by_contra hne
        have hq1m0 : PermissionEntity.isAroMatching q1 (state[j0]) = true :=
          isAroMatching_trans (isAroMatching_symm hbq1) hbm0
        exact uniqueAroInv_getElem? hInv.2.1 hne hq1 hst0 hq1m0
      have hq1m0eq : q1 = state[j0] := by
        rw [hj1j0] at hq1
        have h12 := hq1.symm.trans hst0
        injection h12
      have hj1lenS : j1 < state.length :=
        (List.getElem?_eq_some_iff.mp hq1).1
      have hInv2 := invariant_addOrReplace hInv hrepl
      have hlen2 : (state.set j1
          (PermissionEntity.getHighestPermission q1 b)).length = A.length := by
        simpa using hlen
      have hrel2 : ∀ (j : Nat) (a m : PermissionEntity), A[j]? = some a →
          (state.set j1 (PermissionEntity.getHighestPermission q1 b))[j]? =
            some m → PermissionEntity.isAroMatching m a = true := by
        intro j a m hj hm
        rcases eq_or_ne j1 j with heq | hne
        · subst heq
          rw [List.getElem?_set_self hj1lenS] at hm
          injection hm with hm
          rw [← hm]
          have haa0 : a = a0 := by
            rw [hj1j0] at hj
            have h12 := hj.symm.trans hj0
            injection h12
          rw [haa0]
          rcases getHighestPermission_cases q1 b with hc | hc <;> rw [hc]
          · rw [hq1m0eq]
            exact hm0a0
          · exact hba0
        · rw [List.getElem?_set_ne hne] at hm
          exact hrel j a m hj hm
      have hmem2 : ∀ m ∈ state.set j1
            (PermissionEntity.getHighestPermission q1 b), m ∈ A ∨ m ∈ B := by
          intro m hm
          rcases addOrReplace_mem hrepl m hm with h1 | h1
          · exact hmem m h1
          · rw [h1]
            exact Or.inr hbB
      obtain ⟨res, hfold, hInvR, hlenR, hposR, hmemR⟩ :=
          ih (state.set j1 (PermissionEntity.getHighestPermission q1 b))
            (fun b2 hb2 => hbs b2 (List.mem_cons_of_mem b hb2))
            hInv2 hlen2 hrel2 hmem2
      refine ⟨res, ?_, hInvR, hlenR, ?_, hmemR⟩
      · unfold addOrReplaceList
        rw [hrepl]
        exact hfold
      · intro j a m0 m hj hm0 hm
        rcases eq_or_ne j1 j with heq | hne
        · subst heq
          have haa0 : a = a0 := by
            rw [hj1j0] at hj
            have h12 := hj.symm.trans hj0
            injection h12
          have hm0q1 : m0 = q1 := by
            have h12 := hm0.symm.trans hq1
            injection h12
          have hst2 : (state.set j1
              (PermissionEntity.getHighestPermission q1 b))[j1]? =
              some (PermissionEntity.getHighestPermission q1 b) :=
            List.getElem?_set_self (by simpa using hj1lenS)
          obtain ⟨hmaro, hmval⟩ := hposR j1 a
            (PermissionEntity.getHighestPermission q1 b) m hj hst2 hm
          refine ⟨hmaro, ?_⟩
          have hgv : (PermissionEntity.getHighestPermission q1 b).type.val =
              max q1.type.val b.type.val := getHighestPermission_val q1 b
          have hba : PermissionEntity.isAroMatching b a = true := by
            rw [haa0]
            exact hba0
          have hml : maxLevelFor (b :: bs) a =
              max b.type.val (maxLevelFor bs a) := by
            rw [maxLevelFor_cons, if_pos hba]
          rw [hm0q1, hml, hmval, hgv]
          omega
        · have hst2 : (state.set j1
              (PermissionEntity.getHighestPermission q1 b))[j]? = some m0 := by
            rw [List.getElem?_set_ne hne]
            exact hm0
          obtain ⟨hmaro, hmval⟩ := hposR j a m0 m hj hst2 hm
          refine ⟨hmaro, ?_⟩
          have hbafalse : PermissionEntity.isAroMatching b a = false := by
            cases hc : PermissionEntity.isAroMatching b a with
            | false => rfl
            | true =>
              exfalso
              have haa0 : PermissionEntity.isAroMatching a a0 = true :=
                isAroMatching_trans (isAroMatching_symm hc) hba0
              have hja : j < A.length := (List.getElem?_eq_some_iff.mp hj).1
              exact uniqueAroInv_getElem? hInvA.2.1
                (by omega : j ≠ j0) hj hj0 haa0
          have hml : maxLevelFor (b :: bs) a = maxLevelFor bs a := by
            rw [maxLevelFor_cons, if_neg (by simp [hbafalse])]
          rw [hml, hmval]


/-- Folding permissions that are already dominated — each has an ARO-matching
member of at least its level, with compatible ACO and ids — leaves the
collection unchanged. -/
theorem addOrReplaceList_absorb :
    ∀ (bs state : List PermissionEntity),
      Invariant state →
      (∀ b ∈ bs, AcoCompat state b ∧ IdCompat state b ∧
        ∃ (j : Nat) (m : PermissionEntity), state[j]? = some m ∧
          PermissionEntity.isAroMatching b m = true ∧
          b.type.val ≤ m.type.val) →
      addOrReplaceList state bs = Except.ok state
  | [], state => by
    intro _ _
    rfl
  | b :: bs, state => by
    intro hInv hbs
    obtain ⟨hAcoC, hIdC, j, m, hjm, hbm, hble⟩ :=
      hbs b (List.mem_cons_self b bs)
    have hmmem : m ∈ state := List.mem_iff_getElem?.mpr ⟨j, hjm⟩
    rcases addOrReplace_shape hInv hAcoC hIdC with ⟨hnone, -⟩ |
      ⟨j1, q1, -, hq1, hbq1, hrepl⟩
    · exfalso
      unfold aroConflictIdx at hnone
      rw [List.findIdx?_eq_none_iff] at hnone
      have hfalse := hnone m hmmem
      rw [hbm] at hfalse
      exact Bool.noConfusion hfalse
    · have hj1j : j1 = j := by
        by_contra hne
        have hq1m : PermissionEntity.isAroMatching q1 m = true :=
          isAroMatching_trans (isAroMatching_symm hbq1) hbm
        exact uniqueAroInv_getElem? hInv.2.1 hne hq1 hjm hq1m
      have hq1meq : q1 = m := by
        rw [hj1j] at hq1
        have h12 := hq1.symm.trans hjm
        injection h12
      have hhigh : PermissionEntity.getHighestPermission q1 b = q1 := by
        apply getHighestPermission_eq_left
        rw [hq1meq]
        exact hble
      rw [hhigh, hj1j, hq1meq, set_getElem?_self hjm] at hrepl
      unfold addOrReplaceList
      rw [hrepl]
      exact addOrReplaceList_absorb bs state hInv
        (fun b2 hb2 => hbs b2 (List.mem_cons_of_mem b hb2))

theorem owner_of_val_ge {t : PermLevel} (h : 15 ≤ t.val) :
    t = PermLevel.owner := by
  cases t with
  | read => exact absurd h (by decide)
  | update => exact absurd h (by decide)
  | owner => rfl

theorem isOwner_iff {p : PermissionEntity} :
    PermissionEntity.isOwner p = true ↔ p.type = PermLevel.owner := by
  simp [PermissionEntity.isOwner]

/-- Update grant for user 101 on a different ACO (resource 11): its ARO
occurs in [pU1Owner] but its ACO does not match. -/
def pBadAcoB : PermissionEntity :=
  { id := none, aco := AcoType.resource, acoForeignKey := 11,
    aro := AroType.user, aroForeignKey := 101, type := PermLevel.update }

/-- Counterexample to C2 as stated: B's only member has its (ARO type, ARO
id) in A, yet the union does not return a collection at all — it raises
SAME_ACO, because the member's ACO differs from A's. -/
theorem C2_counterexample :
    (∀ b ∈ [pBadAcoB], ∃ a ∈ [pU1Owner],
      PermissionEntity.isAroMatching b a = true) ∧
      unionByAcoAndType [pU1Owner] [pBadAcoB] none =
        Except.error ⟨0, Rule.same_aco⟩ :=
  ⟨by decide, rfl⟩

/-- C2 amended: for every collection A satisfying the invariants and holding
an Owner entry, and every collection B whose members' (ARO type, ARO id)
pairs all occur in A, all matching A's ACO scope, and whose present ids are
shared only with ARO-matching members of A or B: unionByAcoAndType(A, B)
returns exactly |A| entries, the entry at each position matching the ARO of
A's entry there and carrying the highest permission level that ARO has
across A and B; consequently unioning the result with B again returns it
unchanged (idempotence). -/
theorem C2_union_highest_levels (A B : List PermissionEntity)
    (hInvA : Invariant A)
    (hAowner : ∃ d ∈ A, d.isOwner = true)
    (hBsub : ∀ b ∈ B, ∃ a ∈ A, PermissionEntity.isAroMatching b a = true)
    (hBaco : ∀ b ∈ B, ∀ a ∈ A, PermissionEntity.isAcoMatching b a = true)
    (hBid : ∀ b ∈ B, ∀ q, (q ∈ A ∨ q ∈ B) → ∀ x, q.id = some x →
      b.id = some x → PermissionEntity.isAroMatching b q = true) :
    ∃ res, unionByAcoAndType A B none = Except.ok res ∧
      res.length = A.length ∧
      (∀ (j : Nat) (a m : PermissionEntity), A[j]? = some a →
        res[j]? = some m →
        PermissionEntity.isAroMatching m a = true ∧
        m.type.val = max a.type.val (maxLevelFor B a)) ∧
      unionByAcoAndType res B none = Except.ok res := by
  obtain ⟨res, hfold, hInvR, hlenR, hposR, hmemR⟩ :=
    union_fold A B hInvA hBaco hBid hBsub B A (fun _ hb => hb) hInvA rfl
      (fun j a m hj hm => by
        have h12 := hm.symm.trans hj
        injection h12 with h12
        rw [h12]
        exact isAroMatching_refl a)
      (fun m hm => Or.inl hm)
  have hpos2 : ∀ (j : Nat) (a m : PermissionEntity), A[j]? = some a →
      res[j]? = some m →
      PermissionEntity.isAroMatching m a = true ∧
      m.type.val = max a.type.val (maxLevelFor B a) :=
    fun j a m hj hm => hposR j a a m hj hj hm
  obtain ⟨d, hdA, hdo⟩ := hAowner
  obtain ⟨jo, hjo⟩ := List.mem_iff_getElem?.mp hdA
  have hjolen : jo < A.length := (List.getElem?_eq_some_iff.mp hjo).1
  have hjores : res[jo]? = some (res[jo]) :=
    List.getElem?_eq_getElem (by omega)
  obtain ⟨-, hovval⟩ := hpos2 jo d (res[jo]) hjo hjores
  have hdval : d.type.val = 15 := by
    rw [isOwner_iff.mp hdo]
    rfl
  have hroOwner : (res[jo]).type = PermLevel.owner := by
    apply owner_of_val_ge
    rw [hovval, hdval]
    omega
  have hanyR : assertAtLeastOneOwner res = none := by
    unfold assertAtLeastOneOwner
    rw [if_pos]
    rw [List.any_eq_true]
    exact ⟨res[jo], List.mem_iff_getElem?.mpr ⟨jo, hjores⟩,
      isOwner_iff.mpr hroOwner⟩
  have hunion : unionByAcoAndType A B none = Except.ok res := by
    unfold unionByAcoAndType
    rw [build_of_invariant_off A hInvA]
    dsimp only
    rw [hfold]
    dsimp only
    have hcond : (Option.getD (none : Option Bool) true) = true := rfl
    rw [if_pos hcond, hanyR]
  have habsorb : addOrReplaceList res B = Except.ok res := by
    apply addOrReplaceList_absorb B res hInvR
    intro b hbB
    obtain ⟨a0, ha0A, hba0⟩ := hBsub b hbB
    obtain ⟨j0, hj0⟩ := List.mem_iff_getElem?.mp ha0A
    have hj0len : j0 < A.length := (List.getElem?_eq_some_iff.mp hj0).1
    have hj0res : res[j0]? = some (res[j0]) :=
      List.getElem?_eq_getElem (by omega)
    obtain ⟨hq, hv⟩ := hpos2 j0 a0 (res[j0]) hj0 hj0res
    refine ⟨?_, ?_, j0, res[j0], hj0res,
      isAroMatching_trans hba0 (isAroMatching_symm hq), ?_⟩
    · intro q hqmem
      rcases hmemR q hqmem with hqA | hqB
      · exact hBaco b hbB q hqA
      · exact isAcoMatching_trans (hBaco b hbB a0 ha0A)
          (isAcoMatching_symm (hBaco q hqB a0 ha0A))
    · intro q hqmem x hqx hbx
      exact hBid b hbB q (hmemR q hqmem) x hqx hbx
    · have hble : b.type.val ≤ maxLevelFor B a0 := maxLevelFor_le hbB hba0
      rw [hv]
      omega
  have hunion2 : unionByAcoAndType res B none = Except.ok res := by
    unfold unionByAcoAndType
    rw [build_of_invariant_off res hInvR]
    dsimp only
    rw [habsorb]
    dsimp only
    have hcond : (Option.getD (none : Option Bool) true) = true := rfl
    rw [if_pos hcond, hanyR]
  exact ⟨res, hunion, hlenR, hpos2, hunion2⟩

/-- Concrete instantiation of the amended C2: A = [pU1Owner, pG1Update],
B = [pU1ReadDup] (an id-less, lower-levelled grant for user 101, already in
A by ARO). -/
theorem C2_union_highest_levels_witness :
    ∃ res, unionByAcoAndType [pU1Owner, pG1Update] [pU1ReadDup] none =
        Except.ok res ∧
      res.length = 2 ∧
      (∀ (j : Nat) (a m : PermissionEntity),
        [pU1Owner, pG1Update][j]? = some a → res[j]? = some m →
        PermissionEntity.isAroMatching m a = true ∧
        m.type.val = max a.type.val (maxLevelFor [pU1ReadDup] a)) ∧
      unionByAcoAndType res [pU1ReadDup] none = Except.ok res :=
  C2_union_highest_levels [pU1Owner, pG1Update] [pU1ReadDup]
    (by decide) (by decide) (by decide) (by decide)
    (by
      intro b hb q hq x hqx hbx
      have hb2 : b = pU1ReadDup := by simpa using hb
      rw [hb2] at hbx
      exact Option.noConfusion hbx)


/-! ### The resource-export controller against the provided progress
controller (C10) -/

/-- C10 (code evaluation): with progressController.js as provided — exporting
only start, complete, update and updateGoals — every run of
ResourceExportController.exec rejects: the call to the non-existent
`progressController.open` throws a TypeError which the catch-block logs, and
the finally-block's call to the equally non-existent
`progressController.close` throws a TypeError that escapes to the caller; the
progress dialog is never opened, never closed, on the success path and the
failure path alike. -/
theorem C10_export_controller_close_missing (remoteFails : Bool) :
    (execModel progressControllerModule remoteFails).rejected = true ∧
      ExecEvent.consoleErrorLogged ∈
        (execModel progressControllerModule remoteFails).events ∧
      ExecEvent.progressDialogClosed ∉
        (execModel progressControllerModule remoteFails).events ∧
      ExecEvent.progressDialogOpened ∉
        (execModel progressControllerModule remoteFails).events := by
  cases remoteFails <;> decide

end Passbolt
